import Mathlib
/-!
Verification of the pipeline execution engine and output-sink orchestrator of
the compute-module pipeline template.

The Go sources are shallowly embedded as pure Lean functions:

* `pkg/pipeline/worker/worker.go` — the bounded-concurrency worker pool:
  retry classification (`workerIsTransient`, `maxExtraRetries`), the per-item
  retry loop (`processWithRetryGo`), the per-item wrapper (`processOneGo`),
  the non-streaming collector (`processAllGo`, parametrised by an arbitrary
  completion order), and the single-worker fail-fast run (`runPoolFailFastSeq`).
* `examples/email_enricher/pipeline` — `emailProcessor`, `rowFromWorkerResult`
  (with the redaction and JSON-encoding collaborators as parameters).
* the app orchestrator — `buildIncrementalPlan`, `applyEnrichedRows`,
  `readExistingOutputRowsGo`/`rowsToCache`, `runDatasetCore`, `runStreamCore`,
  `runFoundrySinks`.
* `pkg/pipeline/io/foundry/io.go` — `foundryIsTransient`, `retryTransientGo`,
  `uploadDatasetCSVGo`, `isOpenTransactionAlreadyExists`, and the
  latest-open-transaction selection (`findLatestOpenTransaction`).

Concurrency is modelled by quantifying over completion orders (permutations)
where a claim depends on scheduling; timing (sleeps) is modelled by the pure
backoff-value schedule. Errors are a flat inductive `GoErr` mirroring the
error classes the code distinguishes via `errors.As` / `errors.Is`.
-/
namespace PipelineProof
/-! ## Worker pool (`pkg/pipeline/worker/worker.go`) -/
/-! ## Definitions -/
/-- Model of a Go `error` value, flattened to the classes the repository
distinguishes: `core.TransientError`, `core.LimitedTransientError`,
`context.DeadlineExceeded`, `net.Error` (with its `Timeout()`/`Temporary()`
results), `foundry.HTTPError` (status code, error name, error code),
`syscall.ECONNRESET`/`ECONNREFUSED`, and untagged errors. -/
inductive GoErr where
  | transient (msg : String)
  | limitedTransient (msg : String) (extraRetries : Int)
  | deadlineExceeded
  | netErr (isTimeout isTemporary : Bool)
  | http (status : Nat) (errorName errorCode : String)
  | econnreset
  | econnrefused
  | plain (msg : String)
deriving Repr, DecidableEq, Inhabited
/-- Model of Go `unicode.IsSpace` restricted to the Latin-1 range (the only
characters the pipeline's identifiers can realistically contain): space,
tab, newline, vertical tab, form feed, carriage return, NEL and NBSP. -/
def goIsSpace (c : Char) : Bool :=
  c = ' ' || c = '\t' || c = '\n' || c = (Char.ofNat 11) || c = (Char.ofNat 12) ||
  c = '\r' || c = (Char.ofNat 133) || c = (Char.ofNat 160)
/-- Drop leading and trailing whitespace from a character list. -/
def trimCharList (l : List Char) : List Char :=
  ((l.dropWhile goIsSpace).reverse.dropWhile goIsSpace).reverse
/-- Model of Go `strings.TrimSpace`. -/
def goTrimSpace (s : String) : String :=
  String.mk (trimCharList s.data)
/-- ASCII lower-casing of one character (simple case folding). -/
def goLowerChar (c : Char) : Char :=
  if 'A' ≤ c ∧ c ≤ 'Z' then Char.ofNat (c.toNat + 32) else c

/-- Model of Go `strings.EqualFold` (simple case folding, ASCII range). -/
def goEqualFold (a b : String) : Bool :=
  String.mk (a.data.map goLowerChar) == String.mk (b.data.map goLowerChar)
/-- `emailKey` from the app orchestrator: identifiers are keyed by their
trimmed form. -/
def emailKey (email : String) : String :=
  goTrimSpace email
/-- `worker.Result`: the output for one input item (`Input`, `Output`, `Err`).
The partial output a failing processor returned is modelled as `default`. -/
structure WorkerResult (In Out : Type) where
  Input : In
  Output : Out
  Err : Option GoErr
deriving Repr, DecidableEq, Inhabited
/-- `worker.isTransient`: an error is retryable iff it is (or wraps) a
`core.TransientError` or `core.LimitedTransientError`, is
`context.DeadlineExceeded`, or is a `net.Error` whose `Timeout()` or
`Temporary()` holds. -/
def workerIsTransient : GoErr → Bool
  | .transient _ => true
  | .limitedTransient _ _ => true
  | .deadlineExceeded => true
  | .netErr t p => t || p
  | _ => false
/-- `worker.maxExtraRetries`: the pool default and a per-error cap are each
clamped to be non-negative; an error carrying a retry cap
(`LimitedTransientError.MaxExtraRetries`) lowers the budget to the smaller of
cap and default (the source returns the cap only when it is strictly below
the default, which is the same value). -/
def maxExtraRetries (defaultRetries : Int) : GoErr → Int
  | .limitedTransient _ cap => min (max cap 0) (max defaultRetries 0)
  | _ => max defaultRetries 0
/-- The retry loop of `worker.processWithRetry`, with the per-attempt context,
rate limiter and backoff sleeps elided (no cancellation in the model).  The
processor is modelled as a function of the attempt number; the result is the
number of processor invocations paired with the final outcome.  The `fuel`
argument only bounds the recursion; `processWithRetryGo` supplies enough fuel
that the bound is never the reason the loop stops (the loop provably exits at
attempt `maxExtraRetries`). -/
def processWithRetryAux (maxRetries : Int) (proc : Nat → Except GoErr Out) :
    Nat → Nat → Nat × Except GoErr Out
  | 0, attempt => (attempt, .error (.plain "fuel exhausted"))
  | fuel + 1, attempt =>
    match proc attempt with
    | .ok v => (attempt + 1, .ok v)
    | .error e =>
      if workerIsTransient e = true ∧ (attempt : Int) < maxExtraRetries maxRetries e then
        processWithRetryAux maxRetries proc fuel (attempt + 1)
      else
        (attempt + 1, .error e)
/-- `worker.processWithRetry`: run the processor with the pool's retry policy,
returning the number of invocations and the final outcome. -/
def processWithRetryGo (maxRetries : Int) (proc : Nat → Except GoErr Out) :
    Nat × Except GoErr Out :=
  processWithRetryAux maxRetries proc (maxRetries.toNat + 1) 0
/-- `worker.processOne`: runs the retry loop and records the item itself in
the result's `Input` field. -/
def processOneGo [Inhabited Out] (m : Int) (proc : In → Nat → Except GoErr Out)
    (item : In) : WorkerResult In Out :=
  match processWithRetryGo m (proc item) with
  | (_, .ok v) => ⟨item, v, none⟩
  | (_, .error e) => ⟨item, default, some e⟩
/-- Write `f idx` at each index of `order` into `a`, in order: the model of
the collector loop `out[item.idx] = item.res` of `ProcessAllWithCallback`. -/
def writeAll (f : Nat → α) (order : List Nat) (a : List α) : List α :=
  order.foldl (fun acc idx => acc.set idx (f idx)) a
/-- The non-streaming collector of `ProcessAllWithCallback`: the result slice
is allocated at the input's length (Go zero values, here `default`), and each
completion writes `processOne` of the item at its original index.  The
completion order is an arbitrary list of indices: any interleaving the
workers produce. -/
def processAllGo [Inhabited In] [Inhabited Out] (m : Int)
    (proc : In → Nat → Except GoErr Out) (items : List In) (order : List Nat) :
    List (WorkerResult In Out) :=
  writeAll (fun idx => processOneGo m proc (items.getD idx default)) order
    (List.replicate items.length default)
/-- The single-worker run with the fail-fast policy, processed sequentially in
queue order (the only schedule one worker admits): returns the list of items
the processor was invoked for, and either the full results collection or the
first final per-item error (in which case no collection is returned and the
remaining items are never dequeued). -/
def runPoolFailFastSeq [Inhabited Out] (m : Int)
    (proc : In → Nat → Except GoErr Out) :
    List In → List In × Except GoErr (List (WorkerResult In Out))
  | [] => ([], .ok [])
  | item :: rest =>
    let r := processOneGo m proc item
    match r.Err with
    | some e => ([item], .error e)
    | none =>
      let tail := runPoolFailFastSeq m proc rest
      (item :: tail.1,
        match tail.2 with
        | .ok l => .ok (r :: l)
        | .error e => .error e)
/-! ### Pipeline layer (`examples/email_enricher/pipeline`) -/

/-- `enrich.Result`: the structured enrichment output for a single email. -/
structure EnrichResult where
  LinkedInURL : String
  Company : String
  Title : String
  Description : String
  Confidence : String
  Model : String
  Sources : List String
  WebSearchQueries : List String
deriving Repr, DecidableEq, Inhabited

/-- `pipeline.Row`: the stable output schema contract. -/
structure Row where
  Email : String
  LinkedInURL : String
  Company : String
  Title : String
  Description : String
  Confidence : String
  Status : String
  Error : String
  Model : String
  Sources : String
  WebSearchQueries : String
deriving Repr, DecidableEq, Inhabited

/-- The two out-of-scope collaborators `rowFromWorkerResult` calls:
`redact.Secrets` and `json.Marshal` of a string slice. -/
structure RowCodec where
  redact : String → String
  jsonArr : List String → String

/-- Model of Go `err.Error()` for the flattened error values. -/
def goErrMessage : GoErr → String
  | .transient m => m
  | .limitedTransient m _ => m
  | .deadlineExceeded => "context deadline exceeded"
  | .netErr _ _ => "network error"
  | .http s _ _ => "http status " ++ toString s
  | .econnreset => "connection reset by peer"
  | .econnrefused => "connection refused"
  | .plain m => m

/-- `pipeline.jsonArrayOrEmpty`: an empty slice encodes to the empty string,
otherwise to its JSON encoding. -/
def jsonArrayOrEmpty (codec : RowCodec) (vals : List String) : String :=
  if vals.isEmpty then "" else codec.jsonArr vals

/-- `pipeline.rowFromWorkerResult`: an errored item yields a row with
`status=error` and a redacted error message; a successful item yields a row
with `status=ok` carrying all result fields.  Both trim the input email. -/
def rowFromWorkerResult (codec : RowCodec) (item : WorkerResult String EnrichResult) :
    Row :=
  match item.Err with
  | some e =>
    { Email := goTrimSpace item.Input
      LinkedInURL := ""
      Company := ""
      Title := ""
      Description := ""
      Confidence := ""
      Status := "error"
      Error := codec.redact (goErrMessage e)
      Model := item.Output.Model
      Sources := jsonArrayOrEmpty codec item.Output.Sources
      WebSearchQueries := jsonArrayOrEmpty codec item.Output.WebSearchQueries }
  | none =>
    { Email := goTrimSpace item.Input
      LinkedInURL := item.Output.LinkedInURL
      Company := item.Output.Company
      Title := item.Output.Title
      Description := item.Output.Description
      Confidence := item.Output.Confidence
      Status := "ok"
      Error := ""
      Model := item.Output.Model
      Sources := jsonArrayOrEmpty codec item.Output.Sources
      WebSearchQueries := jsonArrayOrEmpty codec item.Output.WebSearchQueries }

/-- `pipeline.emailProcessor`: trim the raw identifier; an empty result is a
terminal untagged error produced without consulting the enricher, otherwise
the enricher is invoked on the trimmed identifier.  The enricher collaborator
is modelled as a deterministic function of the identifier. -/
def emailProcessor (enricher : String → Except GoErr EnrichResult) (raw : String) :
    Except GoErr EnrichResult :=
  let email := goTrimSpace raw
  if email = "" then .error (.plain "empty email") else enricher email

/-- One email through the worker pool's retry loop plus row conversion.  The
second component counts Enricher invocations: `emailProcessor` invokes the
enricher exactly once per attempt unless the trimmed identifier is empty, in
which case it returns before the enricher and the count is 0. -/
def enrichEmailOne (codec : RowCodec) (m : Int)
    (enricher : String → Except GoErr EnrichResult) (raw : String) : Row × Nat :=
  let rr := processWithRetryGo m (fun _ => emailProcessor enricher raw)
  let res : WorkerResult String EnrichResult :=
    match rr.2 with
    | .ok v => ⟨raw, v, none⟩
    | .error e => ⟨raw, default, some e⟩
  (rowFromWorkerResult codec res, if goTrimSpace raw = "" then 0 else rr.1)

/-- `pipeline.EnrichEmails` under `partial-output` (per-row errors recorded,
run continues): one row per input email, plus the total Enricher call count. -/
def enrichEmailsGo (codec : RowCodec) (m : Int)
    (enricher : String → Except GoErr EnrichResult) :
    List String → List Row × Nat
  | [] => ([], 0)
  | raw :: rest =>
    let one := enrichEmailOne codec m enricher raw
    let tail := enrichEmailsGo codec m enricher rest
    (one.1 :: tail.1, one.2 + tail.2)

/-! ### Incremental planner (app orchestrator) -/

/-- Lookup in the association-list model of the Go map `pendingIdx`. -/
def lookupIdx : List (String × List Nat) → String → Option (List Nat)
  | [], _ => none
  | (k, v) :: rest, key => if k = key then some v else lookupIdx rest key

/-- `pendingIdx[key] = append(pendingIdx[key], i)` on the association-list
model. -/
def insertIdx : List (String × List Nat) → String → Nat → List (String × List Nat)
  | [], key, i => [(key, [i])]
  | (k, v) :: rest, key, i =>
    if k = key then (k, v ++ [i]) :: rest else (k, v) :: insertIdx rest key i

/-- `incrementalPlan`: row slots (pre-allocated at input length with zero
rows), pending identifiers in first-occurrence order, the key-to-positions
map, and the two counters. -/
structure IncrementalPlan where
  rows : List Row
  pendingEmails : List String
  pendingIdx : List (String × List Nat)
  cachedRows : Nat
  pendingRows : Nat
deriving Repr, Inhabited

/-- The non-cached branch of the `buildIncrementalPlan` loop body: enroll the
identifier in the pending set if its key is unseen, and record the input
position under its key. -/
def buildPending (plan : IncrementalPlan) (key email : String) (i : Nat) :
    IncrementalPlan :=
  let seen := (lookupIdx plan.pendingIdx key).isSome
  { plan with
    pendingEmails := if seen then plan.pendingEmails else plan.pendingEmails ++ [email]
    pendingIdx := insertIdx plan.pendingIdx key i
    pendingRows := plan.pendingRows + 1 }

/-- One iteration of the `buildIncrementalPlan` loop: reuse the cached row
(identifier refreshed to the trimmed input) when the cache holds an `ok` row
for the key, otherwise enroll as pending. -/
def buildStep (cache : String → Option Row) (plan : IncrementalPlan) (i : Nat)
    (raw : String) : IncrementalPlan :=
  let email := goTrimSpace raw
  let key := emailKey email
  match cache key with
  | some prev =>
    if goEqualFold (goTrimSpace prev.Status) "ok" then
      { plan with
        rows := plan.rows.set i { prev with Email := email }
        cachedRows := plan.cachedRows + 1 }
    else buildPending plan key email i
  | none => buildPending plan key email i

/-- The `for i, raw := range inputEmails` loop of `buildIncrementalPlan`. -/
def buildAux (cache : String → Option Row) :
    IncrementalPlan → Nat → List String → IncrementalPlan
  | plan, _, [] => plan
  | plan, i, raw :: rest => buildAux cache (buildStep cache plan i raw) (i + 1) rest

/-- `buildIncrementalPlan` from the app orchestrator. -/
def buildIncrementalPlan (inputEmails : List String) (cache : String → Option Row) :
    IncrementalPlan :=
  buildAux cache ⟨List.replicate inputEmails.length default, [], [], 0, 0⟩ 0 inputEmails

/-- Write `v` at every index of `idxs` (the `for _, idx := range idxs` loop of
`applyEnrichedRows`). -/
def setAll (v : α) (idxs : List Nat) (a : List α) : List α :=
  idxs.foldl (fun acc idx => acc.set idx v) a

/-- The `for i, email := range p.pendingEmails` loop of `applyEnrichedRows`. -/
def applyAux (pIdx : List (String × List Nat)) (fresh : List Row) :
    Nat → List String → List Row → Except String (List Row)
  | _, [], rows => .ok rows
  | j, email :: rest, rows =>
    let key := emailKey email
    match lookupIdx pIdx key with
    | none =>
      .error ("incremental enrichment mismatch: missing pending indexes for " ++ email)
    | some idxs =>
      if idxs.isEmpty then
        .error ("incremental enrichment mismatch: missing pending indexes for " ++ email)
      else
        let row := { fresh.getD j default with Email := goTrimSpace email }
        applyAux pIdx fresh (j + 1) rest (setAll row idxs rows)

/-- `incrementalPlan.applyEnrichedRows`: requires exactly one fresh row per
pending identifier, then writes each identifier's fresh row (identifier
refreshed to the trimmed pending entry) at every recorded input position. -/
def applyEnrichedRows (plan : IncrementalPlan) (fresh : List Row) :
    Except String (List Row) :=
  if fresh.length ≠ plan.pendingEmails.length then
    .error ("incremental enrichment mismatch: got " ++ toString fresh.length ++
      " rows for " ++ toString plan.pendingEmails.length ++ " pending emails")
  else applyAux plan.pendingIdx fresh 0 plan.pendingEmails plan.rows

/-! ### Incremental cache from the prior snapshot -/

/-- `isNotFoundError`: an `HTTPError` with status 404. -/
def isNotFoundError : GoErr → Bool
  | .http s _ _ => s == 404
  | _ => false

/-- The cache-construction loop of `readExistingOutputRows`: key each row by
its trimmed identifier, skip rows whose key is empty, later rows overwrite
earlier ones (Go map assignment). -/
def rowsToCache (rows : List Row) : String → Option Row :=
  rows.foldl
    (fun m row =>
      let key := emailKey row.Email
      if key = "" then m
      else fun k => if k = key then some row else m k)
    (fun _ => none)

/-- `readExistingOutputRows`: a single, unretried `ReadTableCSV` call (the
first component counts the calls made, which is always exactly 1); a 404
response yields an empty cache, any other error is fatal, and a successful
read is keyed by `rowsToCache`.  CSV decoding is an external collaborator, so
the read is modelled as returning rows directly. -/
def readExistingOutputRowsGo (readTable : Except GoErr (List Row)) :
    Nat × Except GoErr (String → Option Row) :=
  match readTable with
  | .error e =>
    if isNotFoundError e then (1, .ok (fun _ => none)) else (1, .error e)
  | .ok rows => (1, .ok (rowsToCache rows))

/-! ### Foundry I/O retry layer (`pkg/pipeline/io/foundry/io.go`) -/

/-- `foundryio.isTransient`: HTTP 429 or 5xx, deadline exceeded, a `net.Error`
with `Timeout()` or `Temporary()`, or `ECONNRESET`/`ECONNREFUSED`. -/
def foundryIsTransient : GoErr → Bool
  | .http s _ _ => s == 429 || s / 100 == 5
  | .deadlineExceeded => true
  | .netErr t p => t || p
  | .econnreset => true
  | .econnrefused => true
  | _ => false

/-- The backoff sleep (milliseconds) used before retry number `i + 1` in
`retryTransient`: starts at `initial`, doubles after each attempt, capped at
2000 ms (2 s). -/
def rtBackoff (initial : Nat) : Nat → Nat
  | 0 => initial
  | i + 1 =>
    let t := rtBackoff initial i * 2
    if 2000 < t then 2000 else t

/-- The `for i := 0; i < attempts; i++` loop of `retryTransient`, with sleeps
elided (their values are `rtBackoff`).  `i` is the attempt index, `fuel` the
remaining iterations (`fuel = attempts - i`); the result pairs the number of
calls made with the outcome.  A non-transient error, or a transient error on
the last iteration, propagates immediately. -/
def retryTransientAux (f : Nat → Except GoErr α) : Nat → Nat → Nat × Except GoErr α
  | _, 0 => (0, .error (.plain "retryTransient: no attempts"))
  | i, fuel + 1 =>
    match f i with
    | .ok v => (1, .ok v)
    | .error e =>
      if foundryIsTransient e = false ∨ fuel = 0 then (1, .error e)
      else
        let r := retryTransientAux f (i + 1) fuel
        (r.1 + 1, r.2)

/-- `foundryio.retryTransient` with the given attempt budget (all call sites
pass 8). -/
def retryTransientGo (f : Nat → Except GoErr α) (attempts : Nat) :
    Nat × Except GoErr α :=
  retryTransientAux f 0 attempts

/-! ### Snapshot-sink transaction protocol -/

/-- `isOpenTransactionAlreadyExists`: HTTP 409 with the
`OpenTransactionAlreadyExists` error name or `CONFLICT` error code. -/
def isOpenTransactionAlreadyExists : GoErr → Bool
  | .http s name code =>
    s == 409 && (name == "OpenTransactionAlreadyExists" || code == "CONFLICT")
  | _ => false

/-- A dataset transaction as listed by the platform (`CreatedTime` is modelled
as a Nat timestamp for chronological comparison). -/
structure FTransaction where
  rid : String
  status : String
  createdTime : Nat
deriving Repr, DecidableEq, Inhabited

/-- The selection predicate of `FindLatestOpenTransaction`: status `OPEN`
(case-insensitive, trimmed) with a non-empty trimmed RID. -/
def isOpenTxn (t : FTransaction) : Bool :=
  goEqualFold (goTrimSpace t.status) "OPEN" && goTrimSpace t.rid != ""

/-- `Client.FindLatestOpenTransaction`: the first listed transaction that is
`OPEN` with a non-empty RID (the platform lists transactions in reverse
chronological order; pagination is elided by passing the full list). -/
def findLatestOpenTransaction (txns : List FTransaction) : Option String :=
  match txns.find? isOpenTxn with
  | some t => some (goTrimSpace t.rid)
  | none => none

/-- The platform calls `UploadDatasetCSV` makes, each modelled as a function
of the attempt number (`retryTransient` re-invokes them). -/
structure TxnOracle where
  createTxn : Nat → Except GoErr String
  findLatestOpen : Nat → Except GoErr (Option String)
  upload : String → Nat → Except GoErr Unit
  commit : String → Nat → Except GoErr Unit

/-- Observable outcome of one `UploadDatasetCSV` run: whether the write
transaction was created by this run, which transaction identity received the
upload, which was committed, and the run error if any. -/
structure UploadOutcome where
  createdByUs : Bool
  uploadedTxn : Option String
  committedTxn : Option String
  runErr : Option GoErr
deriving Repr, DecidableEq, Inhabited

/-- The upload-then-commit-if-created tail of `UploadDatasetCSV`. -/
def uploadAndMaybeCommit (o : TxnOracle) (txnID : String) (createdByUs : Bool) :
    UploadOutcome :=
  match (retryTransientGo (o.upload txnID) 8).2 with
  | .error e => ⟨createdByUs, none, none, some e⟩
  | .ok _ =>
    if createdByUs then
      match (retryTransientGo (o.commit txnID) 8).2 with
      | .error e => ⟨true, some txnID, none, some e⟩
      | .ok _ => ⟨true, some txnID, some txnID, none⟩
    else ⟨false, some txnID, none, none⟩

/-- `foundryio.UploadDatasetCSV`: create a transaction (retried); on an
open-transaction conflict, fall back to the latest open transaction and mark
it as not created by this run; upload into the selected transaction; commit
only when the transaction was created by this run. -/
def uploadDatasetCSVGo (o : TxnOracle) : UploadOutcome :=
  match (retryTransientGo o.createTxn 8).2 with
  | .ok txnID => uploadAndMaybeCommit o txnID true
  | .error e =>
    if isOpenTransactionAlreadyExists e then
      match (retryTransientGo o.findLatestOpen 8).2 with
      | .error e2 => ⟨false, none, none, some e2⟩
      | .ok none =>
        ⟨false, none, none,
          some (.plain "output dataset has an open transaction but no OPEN transaction was returned by listTransactions")⟩
      | .ok (some t) =>
        if t = "" then
          ⟨false, none, none,
            some (.plain "output dataset has an open transaction but no OPEN transaction was returned by listTransactions")⟩
        else uploadAndMaybeCommit o t false
    else ⟨false, none, none, some e⟩

/-! ### Output sink orchestrator (`RunFoundry`) -/

/-- Result of the stream branch of `RunFoundry`: rows published in completion
order, total Enricher calls, and the aborting error if any. -/
structure StreamRun where
  published : List Row
  enrichCalls : Nat
  runErr : Option GoErr
deriving Repr, Inhabited

/-- The stream branch of `RunFoundry` via `EnrichEmailsStream`: each completed
row is published immediately through the callback; a publish failure aborts
the run (fail-fast callback error).  No incremental cache is consulted. -/
def runStreamAux (codec : RowCodec) (m : Int)
    (enricher : String → Except GoErr EnrichResult)
    (publish : Row → Except GoErr Unit) : List String → StreamRun
  | [] => ⟨[], 0, none⟩
  | raw :: rest =>
    let one := enrichEmailOne codec m enricher raw
    match publish one.1 with
    | .error e => ⟨[], one.2, some e⟩
    | .ok _ =>
      let tail := runStreamAux codec m enricher publish rest
      ⟨one.1 :: tail.published, one.2 + tail.enrichCalls, tail.runErr⟩

/-- The dataset branch of `RunFoundry` past the cache read: build the
incremental plan, enrich only the pending identifiers (skipped entirely when
none are pending), and merge fresh rows back.  Returns the final rows and the
Enricher call count. -/
def runDatasetCore (codec : RowCodec) (m : Int) (emails : List String)
    (cache : String → Option Row)
    (enricher : String → Except GoErr EnrichResult) :
    Except String (List Row × Nat) :=
  let plan := buildIncrementalPlan emails cache
  if plan.pendingEmails.isEmpty then .ok (plan.rows, 0)
  else
    let fresh := enrichEmailsGo codec m enricher plan.pendingEmails
    match applyEnrichedRows plan fresh.1 with
    | .error e => .error e
    | .ok rows => .ok (rows, fresh.2)

/-- Observable outcome of one `RunFoundry` sink phase: how many prior-output
reads were made, how many Enricher calls, what was published (stream) or
uploaded (dataset), and the run error if any. -/
structure FoundryRunOutcome where
  priorReadCalls : Nat
  enrichCalls : Nat
  published : List Row
  uploadedRows : List Row
  runErr : Option GoErr
deriving Repr, Inhabited

/-- The sink dispatch of `RunFoundry`: the stream branch disables incremental
mode (no prior-output read at all) and publishes per-row via the streaming
callback; the dataset branch reads the prior snapshot once, builds the cache,
and runs the incremental plan.  Internal-consistency errors from
`applyEnrichedRows` surface as untagged errors. -/
def runFoundrySinks (codec : RowCodec) (m : Int) (isStream : Bool)
    (emails : List String) (readPrior : Except GoErr (List Row))
    (enricher : String → Except GoErr EnrichResult)
    (publish : Row → Except GoErr Unit) : FoundryRunOutcome :=
  if isStream then
    let sr := runStreamAux codec m enricher publish emails
    ⟨0, sr.enrichCalls, sr.published, [], sr.runErr⟩
  else
    match (readExistingOutputRowsGo readPrior).2 with
    | .error e => ⟨1, 0, [], [], some e⟩
    | .ok cache =>
      match runDatasetCore codec m emails cache enricher with
      | .error s => ⟨1, 0, [], [], some (.plain s)⟩
      | .ok rc => ⟨1, rc.2, [], rc.1, none⟩

/-! ### Invariant of the incremental planner -/

/-- The cache key of input position `i`: the trimmed identifier, trimmed once
more by `emailKey` (exactly the chain the source applies). -/
def keyOf (emails : List String) (i : Nat) : String :=
  emailKey (goTrimSpace (emails.getD i ""))

/-- Whether the cache serves this key with a prior `ok`-status row (the reuse
condition of `buildIncrementalPlan`). -/
def cachedOk (cache : String → Option Row) (key : String) : Bool :=
  match cache key with
  | some prev => goEqualFold (goTrimSpace prev.Status) "ok"
  | none => false

/-- Invariant of the `buildIncrementalPlan` loop after processing the first
`k` inputs: row slots of cached positions hold the refreshed prior row, the
pending identifiers are key-deduplicated, and the key-to-positions map records
exactly the non-cached positions seen so far. -/
structure PlanInv (emails : List String) (cache : String → Option Row) (k : Nat)
    (plan : IncrementalPlan) : Prop where
  lenRows : plan.rows.length = emails.length
  cachedRow : ∀ i, i < k → ∀ prev, cache (keyOf emails i) = some prev →
    goEqualFold (goTrimSpace prev.Status) "ok" = true →
    plan.rows.getD i default = { prev with Email := goTrimSpace (emails.getD i "") }
  keysNodup : (plan.pendingEmails.map emailKey).Nodup
  lookupSound : ∀ key l, lookupIdx plan.pendingIdx key = some l →
    l ≠ [] ∧ ∀ i ∈ l, i < k ∧ cachedOk cache (keyOf emails i) = false ∧
      keyOf emails i = key
  lookupKeys : ∀ key, (lookupIdx plan.pendingIdx key).isSome = true ↔
    ∃ j, j < plan.pendingEmails.length ∧
      emailKey (plan.pendingEmails.getD j "") = key
  pendingComplete : ∀ i, i < k → cachedOk cache (keyOf emails i) = false →
    i ∈ (lookupIdx plan.pendingIdx (keyOf emails i)).getD []
  pendingFromInput : ∀ j, j < plan.pendingEmails.length → ∃ i, i < k ∧
    cachedOk cache (keyOf emails i) = false ∧
    plan.pendingEmails.getD j "" = goTrimSpace (emails.getD i "")

/-! ### Concrete instances used by witnesses and counterexamples -/

/-- A concrete codec: identity redaction, constant JSON encoding. -/
def idCodec : RowCodec :=
  ⟨fun s => s, fun _ => "[]"⟩

/-- A previously-successful output row for the given identifier. -/
def okRowFor (email : String) : Row :=
  ⟨email, "", "", "", "", "", "ok", "", "", "", ""⟩

/-- A transaction oracle whose create, upload and commit calls all succeed. -/
def happyTxnOracle : TxnOracle :=
  ⟨fun _ => .ok "txn-created", fun _ => .ok none, fun _ _ => .ok (), fun _ _ => .ok ()⟩

/-- A cache holding an `ok` row for the key `a@b.com` (used to exhibit the
identifier-refresh behaviour on untrimmed input). -/
def ceCache : String → Option Row :=
  fun k => if k = "a@b.com" then some (okRowFor "cached@old") else none

/-! ## Theorems -/
theorem dropWhile_dropWhile (p : α → Bool) (l : List α) :
    (l.dropWhile p).dropWhile p = l.dropWhile p := by
  induction l with
  | nil => rfl
  | cons a l ih =>
    by_cases h : p a
    · simp [List.dropWhile_cons, h, ih]
    · simp [List.dropWhile_cons, h]
theorem dropWhile_head?_false (p : α → Bool) (l : List α) (a : α)
    (h : (l.dropWhile p).head? = some a) : p a = false := by
  induction l with
  | nil => simp at h
  | cons b l ih =>
    by_cases hb : p b
    · rw [List.dropWhile_cons_of_pos hb] at h
      exact ih h
    · rw [List.dropWhile_cons_of_neg hb] at h
      simp at h
      subst h
      exact Bool.eq_false_iff.mpr hb
theorem dropWhile_getLast? (p : α → Bool) (l : List α) (h : l.dropWhile p ≠ []) :
    (l.dropWhile p).getLast? = l.getLast? := by
  conv_rhs => rw [← List.takeWhile_append_dropWhile (p := p) (l := l)]
  rw [List.getLast?_append_of_ne_nil _ h]
/-- Trimming is idempotent on character lists. -/
theorem trimCharList_idem (l : List Char) :
    trimCharList (trimCharList l) = trimCharList l := by
  unfold trimCharList
  set p := goIsSpace
  set A := l.dropWhile p with hA
  set B := A.reverse.dropWhile p with hB
  have hTB : B.reverse.dropWhile p = B.reverse := by
    cases hc : B.reverse with
    | nil => simp [hc]
    | cons a t =>
      have hBne : B ≠ [] := by
        intro h0
        rw [h0] at hc
        simp at hc
      have hBlast : B.getLast? = some a := by
        rw [← List.head?_reverse, hc]
        rfl
      have hArev : A.reverse.getLast? = some a := by
        rw [← dropWhile_getLast? p A.reverse (hB ▸ hBne), ← hB, hBlast]
      have hAhead : A.head? = some a := by
        rw [← List.getLast?_reverse, hArev]
      have hpa : p a = false :=
        dropWhile_head?_false p l a (hA ▸ hAhead)
      rw [List.dropWhile_cons_of_neg (by rw [hpa]; simp)]
  rw [hTB, List.reverse_reverse, dropWhile_dropWhile]
/-- Model of Go `strings.TrimSpace` is idempotent. -/
theorem goTrimSpace_idem (s : String) :
    goTrimSpace (goTrimSpace s) = goTrimSpace s := by
  unfold goTrimSpace
  rw [show (String.mk (trimCharList s.data)).data = trimCharList s.data from rfl,
    trimCharList_idem]
theorem maxExtraRetries_nonneg (m : Int) (e : GoErr) : 0 ≤ maxExtraRetries m e := by
  cases e <;> simp only [maxExtraRetries] <;> omega
theorem maxExtraRetries_le (m : Int) (e : GoErr) :
    maxExtraRetries m e ≤ max m 0 := by
  cases e <;> simp only [maxExtraRetries] <;> omega
theorem processWithRetryAux_always_fail (m : Int) (e : GoErr)
    (he : workerIsTransient e = true) (proc : Nat → Except GoErr Out)
    (hp : ∀ n, proc n = .error e) :
    ∀ fuel attempt, attempt ≤ (maxExtraRetries m e).toNat →
      (maxExtraRetries m e).toNat + 1 ≤ fuel + attempt →
      processWithRetryAux m proc fuel attempt =
        ((maxExtraRetries m e).toNat + 1, .error e) := by
  intro fuel
  induction fuel with
  | zero => intro attempt h1 h2; omega
  | succ fuel ih =>
    intro attempt h1 h2
    have hM : 0 ≤ maxExtraRetries m e := maxExtraRetries_nonneg m e
    have hred : processWithRetryAux m proc (fuel + 1) attempt =
        if workerIsTransient e = true ∧ (attempt : Int) < maxExtraRetries m e then
          processWithRetryAux m proc fuel (attempt + 1)
        else (attempt + 1, .error e) := by
      rw [processWithRetryAux, hp attempt]
    rw [hred]
    by_cases hlt : attempt < (maxExtraRetries m e).toNat
    · rw [if_pos ⟨he, by omega⟩]
      exact ih (attempt + 1) (by omega) (by omega)
    · rw [if_neg (by rintro ⟨-, hcond⟩; omega),
        show attempt = (maxExtraRetries m e).toNat by omega]
/-- An always-failing retryable processor is invoked exactly
`maxExtraRetries + 1` times. -/
theorem processWithRetryGo_always_fail (m : Int) (e : GoErr)
    (he : workerIsTransient e = true) (proc : Nat → Except GoErr Out)
    (hp : ∀ n, proc n = .error e) :
    processWithRetryGo m proc = ((maxExtraRetries m e).toNat + 1, .error e) := by
  have hle : maxExtraRetries m e ≤ max m 0 := maxExtraRetries_le m e
  have hM : 0 ≤ maxExtraRetries m e := maxExtraRetries_nonneg m e
  exact processWithRetryAux_always_fail m e he proc hp _ 0 (by omega) (by omega)
/-- A processor that fails non-retryably on the first attempt is invoked
exactly once, and the error propagates. -/
theorem processWithRetryGo_nonretryable (m : Int) (e : GoErr)
    (he : workerIsTransient e = false) (proc : Nat → Except GoErr Out)
    (hp : proc 0 = .error e) :
    processWithRetryGo m proc = (1, .error e) := by
  have hred : processWithRetryGo m proc =
      if workerIsTransient e = true ∧ ((0 : Nat) : Int) < maxExtraRetries m e then
        processWithRetryAux m proc m.toNat 1
      else (1, .error e) := by
    rw [processWithRetryGo, processWithRetryAux, hp]
  rw [hred, if_neg]
  rintro ⟨h1, -⟩
  rw [he] at h1
  exact Bool.false_ne_true h1
/-- A processor that succeeds on the first attempt is invoked exactly once. -/
theorem processWithRetryGo_ok (m : Int) (v : Out) (proc : Nat → Except GoErr Out)
    (hp : proc 0 = .ok v) :
    processWithRetryGo m proc = (1, .ok v) := by
  rw [processWithRetryGo, processWithRetryAux, hp]
theorem processOneGo_input [Inhabited Out] (m : Int)
    (proc : In → Nat → Except GoErr Out) (item : In) :
    (processOneGo m proc item).Input = item := by
  rw [processOneGo]
  rcases h : processWithRetryGo m (proc item) with ⟨c, r⟩
  cases r <;> simp
theorem getD_set_self : ∀ (l : List α) (i : Nat) (v d : α), i < l.length →
    (l.set i v).getD i d = v := by
  intro l
  induction l with
  | nil => intro i v d h; simp at h
  | cons a l ih =>
    intro i v d h
    cases i with
    | zero => rfl
    | succ i => exact ih i v d (by simpa using h)
theorem getD_set_other : ∀ (l : List α) (i j : Nat) (v d : α), i ≠ j →
    (l.set i v).getD j d = l.getD j d := by
  intro l
  induction l with
  | nil => intro i j v d h; simp [List.set]
  | cons a l ih =>
    intro i j v d h
    cases i with
    | zero =>
      cases j with
      | zero => exact absurd rfl h
      | succ j => rfl
    | succ i =>
      cases j with
      | zero => rfl
      | succ j => exact ih i j v d (by omega)
theorem writeAll_length (f : Nat → α) (order : List Nat) (a : List α) :
    (writeAll f order a).length = a.length := by
  induction order generalizing a with
  | nil => rfl
  | cons j rest ih => simp only [writeAll] at ih ⊢; simp [ih, List.length_set]
theorem writeAll_getD_not_mem (f : Nat → α) (order : List Nat) (a : List α)
    (i : Nat) (d : α) (h : i ∉ order) :
    (writeAll f order a).getD i d = a.getD i d := by
  induction order generalizing a with
  | nil => rfl
  | cons j rest ih =>
    simp only [writeAll] at ih ⊢
    simp only [List.foldl_cons]
    rw [ih _ (by simp at h; exact h.2), getD_set_other _ _ _ _ _ (by simp at h; omega)]
theorem writeAll_getD_mem (f : Nat → α) (order : List Nat) (a : List α)
    (i : Nat) (d : α) (hmem : i ∈ order) (hlen : i < a.length) :
    (writeAll f order a).getD i d = f i := by
  induction order generalizing a with
  | nil => simp at hmem
  | cons j rest ih =>
    simp only [writeAll]
    simp only [List.foldl_cons]
    by_cases hr : i ∈ rest
    · exact ih _ hr (by simp [List.length_set, hlen])
    · have hij : i = j := by
        rcases List.mem_cons.mp hmem with h | h
        · exact h
        · exact absurd h hr
      subst hij
      rw [show (List.foldl (fun acc idx => acc.set idx (f idx)) (a.set i (f i)) rest) =
          writeAll f rest (a.set i (f i)) from rfl]
      rw [writeAll_getD_not_mem _ _ _ _ _ hr, getD_set_self _ _ _ _ hlen]
theorem runPoolFailFastSeq_firstFail [Inhabited Out] (m : Int)
    (proc : In → Nat → Except GoErr Out) (x : In) (e : GoErr)
    (pre post : List In)
    (hpre : ∀ y ∈ pre, (processOneGo m proc y).Err = none)
    (hx : (processOneGo m proc x).Err = some e) :
    runPoolFailFastSeq m proc (pre ++ x :: post) = (pre ++ [x], .error e) := by
  induction pre with
  | nil =>
    simp only [List.nil_append]
    rw [runPoolFailFastSeq]
    simp only [hx]
  | cons a pre ih =>
    have ha : (processOneGo m proc a).Err = none := hpre a (by simp)
    simp only [List.cons_append]
    rw [runPoolFailFastSeq]
    simp only [ha]
    rw [ih (fun y hy => hpre y (by simp [hy]))]

/-- C1: a non-streaming worker-pool run returns a results collection of the
same length as the input in which `result[i].Input = input[i]` for every `i`,
for every worker count and completion order (the completion order is an
arbitrary permutation of the indices). -/
theorem C1_index_preservation [Inhabited In] [Inhabited Out] (m : Int)
    (proc : In → Nat → Except GoErr Out) (items : List In) (order : List Nat)
    (h : order.Perm (List.range items.length)) :
    (processAllGo m proc items order).length = items.length ∧
    ∀ i, i < items.length →
      ((processAllGo m proc items order).getD i default).Input = items.getD i default := by
  constructor
  · rw [processAllGo, writeAll_length, List.length_replicate]
  · intro i hi
    rw [processAllGo,
      writeAll_getD_mem _ _ _ _ _ (h.mem_iff.mpr (List.mem_range.mpr hi))
        (by simpa using hi),
      processOneGo_input]

/-- Witness for C1 at items `["a", "b"]` with completion order `[1, 0]`. -/
theorem C1_index_preservation_witness :
    ([1, 0] : List Nat).Perm (List.range (["a", "b"] : List String).length) ∧
    ((processAllGo 0 (fun s _ => (.ok s.length : Except GoErr Nat)) ["a", "b"] [1, 0]).length
        = (["a", "b"] : List String).length ∧
      ∀ i, i < (["a", "b"] : List String).length →
        ((processAllGo 0 (fun s _ => (.ok s.length : Except GoErr Nat)) ["a", "b"] [1, 0]).getD
            i default).Input = (["a", "b"] : List String).getD i default) :=
  ⟨by decide, C1_index_preservation 0 _ ["a", "b"] [1, 0] (by decide)⟩

/-- C2: an item whose processor fails on every attempt with a retryable error
is attempted exactly `1 + min(cap, MaxRetries)` times — `1 + MaxRetries` for
an unconditionally-retryable error (no cap), `1 + min cap MaxRetries` for a
capped-retryable error. -/
theorem C2_retry_budget {Out : Type} (m cap : Int) (hm : 0 ≤ m) (hcap : 0 ≤ cap)
    (msg1 msg2 : String) (proc1 proc2 : Nat → Except GoErr Out)
    (h1 : ∀ n, proc1 n = .error (.transient msg1))
    (h2 : ∀ n, proc2 n = .error (.limitedTransient msg2 cap)) :
    (processWithRetryGo m proc1).1 = 1 + m.toNat ∧
    (processWithRetryGo m proc2).1 = 1 + (min cap m).toNat := by
  constructor
  · rw [processWithRetryGo_always_fail m (.transient msg1) rfl proc1 h1]
    simp only [maxExtraRetries]
    omega
  · rw [processWithRetryGo_always_fail m (.limitedTransient msg2 cap) rfl proc2 h2]
    simp only [maxExtraRetries]
    omega

/-- Witness for C2: pool default 10; an unconditionally-retryable error gives
11 attempts, a capped-retryable error with cap 1 gives 2 attempts. -/
theorem C2_retry_budget_witness :
    ((0 : Int) ≤ 10 ∧ (0 : Int) ≤ 1) ∧
    ((processWithRetryGo 10 (fun _ => (.error (.transient "t") : Except GoErr Unit))).1
        = 1 + (10 : Int).toNat ∧
      (processWithRetryGo 10
          (fun _ => (.error (.limitedTransient "lt" 1) : Except GoErr Unit))).1
        = 1 + (min 1 10 : Int).toNat) :=
  ⟨⟨by decide, by decide⟩,
    C2_retry_budget 10 1 (by decide) (by decide) "t" "lt" _ _
      (fun _ => rfl) (fun _ => rfl)⟩

/-- C3: under fail-fast with one worker, a final per-item error makes the pool
return that error with no results collection, and items queued after the
failing one are never attempted. -/
theorem C3_failfast_short_circuit [Inhabited Out] (m : Int)
    (proc : In → Nat → Except GoErr Out) (x : In) (e : GoErr) (pre post : List In)
    (hpre : ∀ y ∈ pre, (processOneGo m proc y).Err = none)
    (hx : (processOneGo m proc x).Err = some e) :
    runPoolFailFastSeq m proc (pre ++ x :: post) = (pre ++ [x], .error e) ∧
    ∀ z ∈ post, z ∉ pre → z ≠ x →
      z ∉ (runPoolFailFastSeq m proc (pre ++ x :: post)).1 := by
  have h := runPoolFailFastSeq_firstFail m proc x e pre post hpre hx
  refine ⟨h, ?_⟩
  intro z _ hzpre hzx
  rw [h]
  simp only [List.mem_append, List.mem_singleton]
  rintro (h1 | h2)
  · exact hzpre h1
  · exact hzx h2

/-- Witness for C3 at items `["bad", "good"]`: the run returns the error from
"bad" with no results, and "good" is never attempted. -/
theorem C3_failfast_short_circuit_witness :
    ((∀ y ∈ ([] : List String),
        (processOneGo 0 (fun s _ => if s = "bad" then (.error (.plain "boom") : Except GoErr Unit) else .ok ()) y).Err = none) ∧
      (processOneGo 0 (fun s _ => if s = "bad" then (.error (.plain "boom") : Except GoErr Unit) else .ok ()) "bad").Err = some (.plain "boom")) ∧
    (runPoolFailFastSeq 0
        (fun s _ => if s = "bad" then (.error (.plain "boom") : Except GoErr Unit) else .ok ())
        ([] ++ "bad" :: ["good"]) = ([] ++ ["bad"], .error (.plain "boom")) ∧
      ∀ z ∈ ["good"], z ∉ ([] : List String) → z ≠ "bad" →
        z ∉ (runPoolFailFastSeq 0
          (fun s _ => if s = "bad" then (.error (.plain "boom") : Except GoErr Unit) else .ok ())
          ([] ++ "bad" :: ["good"])).1) :=
  ⟨⟨by decide, by decide⟩,
    C3_failfast_short_circuit 0 _ "bad" (.plain "boom") [] ["good"]
      (by decide) (by decide)⟩

/-- C4: an identifier that is empty after trimming never reaches the Enricher
(the processor result is independent of the enricher and equals the terminal
"empty email" error), is attempted exactly once (never retried), makes zero
Enricher calls, and is recorded as a row-level error. -/
theorem C4_empty_identifier (codec : RowCodec) (m : Int)
    (enricher enricher2 : String → Except GoErr EnrichResult) (raw : String)
    (h : goTrimSpace raw = "") :
    emailProcessor enricher raw = emailProcessor enricher2 raw ∧
    emailProcessor enricher raw = .error (.plain "empty email") ∧
    processWithRetryGo m (fun _ => emailProcessor enricher raw) =
      (1, .error (.plain "empty email")) ∧
    (enrichEmailOne codec m enricher raw).2 = 0 ∧
    (enrichEmailOne codec m enricher raw).1.Status = "error" := by
  have hp : emailProcessor enricher raw = .error (.plain "empty email") := by
    simp [emailProcessor, h]
  have hp2 : emailProcessor enricher2 raw = .error (.plain "empty email") := by
    simp [emailProcessor, h]
  have hr : processWithRetryGo m (fun _ => emailProcessor enricher raw) =
      (1, .error (.plain "empty email")) :=
    processWithRetryGo_nonretryable m (.plain "empty email") rfl _ (by rw [hp])
  refine ⟨hp.trans hp2.symm, hp, hr, ?_, ?_⟩
  · simp [enrichEmailOne, h]
  · simp [enrichEmailOne, hr, rowFromWorkerResult]

/-- Witness for C4 at the identifier `"  "`. -/
theorem C4_empty_identifier_witness :
    goTrimSpace "  " = "" ∧
    (emailProcessor (fun _ => .ok default) "  " =
        emailProcessor (fun _ => .error (.plain "other")) "  " ∧
      emailProcessor (fun _ => .ok default) "  " = .error (.plain "empty email") ∧
      processWithRetryGo 3 (fun _ => emailProcessor (fun _ => .ok default) "  ") =
        (1, .error (.plain "empty email")) ∧
      (enrichEmailOne idCodec 3 (fun _ => .ok default) "  ").2 = 0 ∧
      (enrichEmailOne idCodec 3 (fun _ => .ok default) "  ").1.Status = "error") :=
  ⟨by decide, C4_empty_identifier idCodec 3 _ _ "  " (by decide)⟩


/-! ### Foundry retry layer theorems -/

theorem retryTransientAux_bound (f : Nat → Except GoErr α) :
    ∀ fuel i, (retryTransientAux f i fuel).1 ≤ fuel := by
  intro fuel
  induction fuel with
  | zero => intro i; simp [retryTransientAux]
  | succ fuel ih =>
    intro i
    rw [retryTransientAux]
    cases f i with
    | ok v => simp
    | error e =>
      by_cases hc : foundryIsTransient e = false ∨ fuel = 0
      · simp only [hc, if_pos]
        simp
      · simp only [hc, if_neg, not_false_eq_true]
        have := ih (i + 1)
        simp
        omega

theorem retryTransientAux_step (f : Nat → Except GoErr α) (e : GoErr) (i fuel : Nat)
    (hfi : f i = .error e) :
    retryTransientAux f i (fuel + 1) =
      if foundryIsTransient e = false ∨ fuel = 0 then (1, .error e)
      else ((retryTransientAux f (i + 1) fuel).1 + 1,
        (retryTransientAux f (i + 1) fuel).2) := by
  rw [retryTransientAux, hfi]

theorem retryTransientAux_all_transient (f : Nat → Except GoErr α) (e : GoErr)
    (he : foundryIsTransient e = true) (hf : ∀ n, f n = .error e) :
    ∀ fuel i, 1 ≤ fuel → retryTransientAux f i fuel = (fuel, .error e) := by
  intro fuel
  induction fuel with
  | zero => intro i h; omega
  | succ fuel ih =>
    intro i _
    rw [retryTransientAux_step f e i fuel (hf i)]
    cases fuel with
    | zero => simp
    | succ fuel2 =>
      rw [if_neg (by rw [he]; simp)]
      rw [ih (i + 1) (by omega)]

theorem retryTransientGo_nonTransient_first (f : Nat → Except GoErr α) (e : GoErr)
    (he : foundryIsTransient e = false) (h0 : f 0 = .error e)
    (attempts : Nat) (ha : 1 ≤ attempts) :
    retryTransientGo f attempts = (1, .error e) := by
  rw [retryTransientGo]
  cases attempts with
  | zero => omega
  | succ attempts2 =>
    rw [retryTransientAux_step f e 0 attempts2 h0, if_pos (Or.inl he)]

theorem rtBackoff_eq (a : Nat) (ha : a ≤ 2000) :
    ∀ i, rtBackoff a i = min (a * 2 ^ i) 2000 := by
  intro i
  induction i with
  | zero =>
    rw [rtBackoff]
    simp
    omega
  | succ i ih =>
    rw [rtBackoff, ih, show a * 2 ^ (i + 1) = a * 2 ^ i * 2 by ring]
    split <;> omega

/-- C8 counterexample: the prior-snapshot incremental-cache read
(`readExistingOutputRows`) is a platform read that is NOT wrapped in the
retry loop: a 500 response — a recognized transient condition that the
wrapped calls would retry 8 times — is issued exactly once and aborts. -/
theorem C8_counterexample :
    (readExistingOutputRowsGo (.error (.http 500 "" ""))).1 = 1 ∧
    (readExistingOutputRowsGo (.error (.http 500 "" ""))).2 = .error (.http 500 "" "") ∧
    foundryIsTransient (.http 500 "" "") = true ∧
    (retryTransientGo (fun _ => (.error (.http 500 "" "") : Except GoErr (List Row))) 8).1 = 8 :=
  ⟨rfl, rfl, rfl, rfl⟩

/-- C8 (amended): every platform call of the orchestrator except the
prior-snapshot cache read goes through `retryTransient` (8 attempts, capped
exponential backoff `min(200·2^i, 2000)` ms) which retries only recognized
transient conditions and propagates any other error immediately after a
single call; the prior-snapshot cache read is issued exactly once with no
retry. -/
theorem C8_amended {α : Type} (f g : Nat → Except GoErr α) (e1 e2 : GoErr)
    (he1 : foundryIsTransient e1 = false) (hg : g 0 = .error e1)
    (he2 : foundryIsTransient e2 = true) (hf : ∀ n, f n = .error e2) :
    retryTransientGo g 8 = (1, .error e1) ∧
    retryTransientGo f 8 = (8, .error e2) ∧
    (∀ attempts i, (retryTransientAux f i attempts).1 ≤ attempts) ∧
    (∀ i, rtBackoff 200 i = min (200 * 2 ^ i) 2000) ∧
    (∀ r : Except GoErr (List Row), (readExistingOutputRowsGo r).1 = 1) := by
  refine ⟨retryTransientGo_nonTransient_first g e1 he1 hg 8 (by omega),
    retryTransientAux_all_transient f e2 he2 hf 8 0 (by omega),
    fun attempts i => retryTransientAux_bound f attempts i,
    rtBackoff_eq 200 (by omega),
    ?_⟩
  intro r
  rcases r with e | rows
  · rw [readExistingOutputRowsGo]
    split <;> rfl
  · rfl

/-- Witness for C8 (amended) at a 403 (non-transient) and a 500 (transient)
responder. -/
theorem C8_amended_witness :
    (foundryIsTransient (.http 403 "" "") = false ∧
      foundryIsTransient (.http 500 "" "") = true) ∧
    (retryTransientGo (fun _ => (.error (.http 403 "" "") : Except GoErr Unit)) 8
        = (1, .error (.http 403 "" "")) ∧
      retryTransientGo (fun _ => (.error (.http 500 "" "") : Except GoErr Unit)) 8
        = (8, .error (.http 500 "" "")) ∧
      (∀ attempts i,
        (retryTransientAux (fun _ => (.error (.http 500 "" "") : Except GoErr Unit)) i attempts).1
          ≤ attempts) ∧
      (∀ i, rtBackoff 200 i = min (200 * 2 ^ i) 2000) ∧
      (∀ r : Except GoErr (List Row), (readExistingOutputRowsGo r).1 = 1)) :=
  ⟨⟨by decide, by decide⟩,
    C8_amended (fun _ => .error (.http 500 "" "")) (fun _ => .error (.http 403 "" ""))
      (.http 403 "" "") (.http 500 "" "") (by decide) rfl (by decide) (fun _ => rfl)⟩


/-! ### Snapshot-sink transaction theorems -/

theorem uploadAndMaybeCommit_createdByUs (o : TxnOracle) (tx : String) (c : Bool) :
    (uploadAndMaybeCommit o tx c).createdByUs = c := by
  rw [uploadAndMaybeCommit]
  rcases (retryTransientGo (o.upload tx) 8).2 with e | u
  · rfl
  · cases c with
    | false => rfl
    | true =>
      simp only [if_pos]
      rcases (retryTransientGo (o.commit tx) 8).2 with e | u <;> rfl

theorem uploadAndMaybeCommit_committed (o : TxnOracle) (tx : String) (c : Bool) :
    ∀ t, (uploadAndMaybeCommit o tx c).committedTxn = some t → c = true ∧ t = tx := by
  intro t
  rw [uploadAndMaybeCommit]
  rcases (retryTransientGo (o.upload tx) 8).2 with e | u
  · intro h; exact absurd h (by simp)
  · cases c with
    | false => intro h; exact absurd h (by simp)
    | true =>
      simp only [if_pos]
      rcases (retryTransientGo (o.commit tx) 8).2 with e | u
      · intro h; exact absurd h (by simp)
      · intro h
        have h2 : some tx = some t := h
        exact ⟨trivial, (Option.some_injective _ h2).symm⟩

theorem uploadAndMaybeCommit_uploaded (o : TxnOracle) (tx : String) (c : Bool)
    (hu : (retryTransientGo (o.upload tx) 8).2 = .ok ()) :
    (uploadAndMaybeCommit o tx c).uploadedTxn = some tx := by
  rw [uploadAndMaybeCommit, hu]
  cases c with
  | false => rfl
  | true =>
    simp only [if_pos]
    rcases (retryTransientGo (o.commit tx) 8).2 with e | u <;> rfl

theorem uploadAndMaybeCommit_all_ok (o : TxnOracle) (tx : String)
    (hu : (retryTransientGo (o.upload tx) 8).2 = .ok ())
    (hc : (retryTransientGo (o.commit tx) 8).2 = .ok ()) :
    (uploadAndMaybeCommit o tx true).committedTxn = some tx := by
  rw [uploadAndMaybeCommit, hu]
  simp only [if_pos, hc]

theorem findLatestOpen_maximal (txns : List FTransaction)
    (hsorted : txns.Pairwise (fun a b => b.createdTime ≤ a.createdTime)) :
    ∀ r, findLatestOpenTransaction txns = some r →
      ∃ t ∈ txns, isOpenTxn t = true ∧ goTrimSpace t.rid = r ∧
        ∀ u ∈ txns, isOpenTxn u = true → u.createdTime ≤ t.createdTime := by
  induction txns with
  | nil => intro r h; simp [findLatestOpenTransaction] at h
  | cons t rest ih =>
    intro r h
    rw [findLatestOpenTransaction] at h
    by_cases hopen : isOpenTxn t
    · rw [List.find?_cons_of_pos _ hopen] at h
      simp at h
      refine ⟨t, by simp, hopen, h, ?_⟩
      intro u hu _
      rcases List.mem_cons.mp hu with h1 | h2
      · subst h1; omega
      · exact (List.pairwise_cons.mp hsorted).1 u h2
    · rw [List.find?_cons_of_neg _ hopen] at h
      have := ih (List.pairwise_cons.mp hsorted).2 r (by rw [findLatestOpenTransaction]; exact h)
      rcases this with ⟨t2, ht2, hopen2, hrid2, hmax2⟩
      refine ⟨t2, by simp [ht2], hopen2, hrid2, ?_⟩
      intro u hu huopen
      rcases List.mem_cons.mp hu with h1 | h2
      · subst h1; exact absurd huopen (by simpa using hopen)
      · exact hmax2 u h2 huopen

/-- C6: the snapshot-sink orchestrator commits a transaction iff that
transaction was created by this run; on an open-transaction conflict it
selects the most recently created open transaction, uploads into that
pre-existing identity, and never commits it. -/
theorem C6_txn_commit_iff_created (o : TxnOracle) (txns : List FTransaction)
    (hsorted : txns.Pairwise (fun a b => b.createdTime ≤ a.createdTime)) :
    (∀ t, (uploadDatasetCSVGo o).committedTxn = some t →
      (uploadDatasetCSVGo o).createdByUs = true ∧
      (retryTransientGo o.createTxn 8).2 = .ok t) ∧
    (∀ e t, (retryTransientGo o.createTxn 8).2 = .error e →
      isOpenTransactionAlreadyExists e = true →
      (retryTransientGo o.findLatestOpen 8).2 = .ok (some t) → t ≠ "" →
      (uploadDatasetCSVGo o).committedTxn = none ∧
      ((retryTransientGo (o.upload t) 8).2 = .ok () →
        (uploadDatasetCSVGo o).uploadedTxn = some t)) ∧
    (∀ t, (retryTransientGo o.createTxn 8).2 = .ok t →
      (retryTransientGo (o.upload t) 8).2 = .ok () →
      (retryTransientGo (o.commit t) 8).2 = .ok () →
      (uploadDatasetCSVGo o).committedTxn = some t) ∧
    (∀ r, findLatestOpenTransaction txns = some r →
      ∃ t ∈ txns, isOpenTxn t = true ∧ goTrimSpace t.rid = r ∧
        ∀ u ∈ txns, isOpenTxn u = true → u.createdTime ≤ t.createdTime) := by
  refine ⟨?_, ?_, ?_, findLatestOpen_maximal txns hsorted⟩
  · intro t hcommit
    rw [uploadDatasetCSVGo] at hcommit ⊢
    rcases hcreate : (retryTransientGo o.createTxn 8).2 with e | tx
    · rw [hcreate] at hcommit
      by_cases hconf : isOpenTransactionAlreadyExists e
      · rcases hfind : (retryTransientGo o.findLatestOpen 8).2 with e2 | ot
        · simp [hconf, hfind] at hcommit
        · rcases ot with _ | t2
          · simp [hconf, hfind] at hcommit
          · by_cases ht2 : t2 = ""
            · simp [hconf, hfind, ht2] at hcommit
            · have hcommit2 : (uploadAndMaybeCommit o t2 false).committedTxn = some t := by
                simpa [hconf, hfind, ht2] using hcommit
              have := uploadAndMaybeCommit_committed o t2 false t hcommit2
              exact absurd this.1 (by simp)
      · simp [hconf] at hcommit
    · rw [hcreate] at hcommit
      have hcommit2 : (uploadAndMaybeCommit o tx true).committedTxn = some t := hcommit
      have h2 := uploadAndMaybeCommit_committed o tx true t hcommit2
      constructor
      · show (uploadAndMaybeCommit o tx true).createdByUs = true
        rw [uploadAndMaybeCommit_createdByUs]
      · show Except.ok tx = Except.ok t
        rw [h2.2]
  · intro e t hcreate hconf hfind ht
    have hrun : uploadDatasetCSVGo o = uploadAndMaybeCommit o t false := by
      rw [uploadDatasetCSVGo, hcreate]
      simp [hconf, hfind, ht]
    rw [hrun]
    constructor
    · rcases hcomm : (uploadAndMaybeCommit o t false).committedTxn with _ | t2
      · rfl
      · exact absurd (uploadAndMaybeCommit_committed o t false t2 hcomm).1 (by simp)
    · intro hu
      exact uploadAndMaybeCommit_uploaded o t false hu
  · intro t hcreate hu hc
    have hrun : uploadDatasetCSVGo o = uploadAndMaybeCommit o t true := by
      rw [uploadDatasetCSVGo, hcreate]
    rw [hrun]
    exact uploadAndMaybeCommit_all_ok o t hu hc

/-- Witness for C6 on a successful oracle and a two-element reverse
chronological transaction list. -/
theorem C6_txn_commit_iff_created_witness :
    ([⟨"t-new", "OPEN", 7⟩, ⟨"t-old", "OPEN", 3⟩] : List FTransaction).Pairwise
      (fun a b => b.createdTime ≤ a.createdTime) ∧
    ((∀ t, (uploadDatasetCSVGo happyTxnOracle).committedTxn = some t →
        (uploadDatasetCSVGo happyTxnOracle).createdByUs = true ∧
        (retryTransientGo happyTxnOracle.createTxn 8).2 = .ok t) ∧
      (∀ e t, (retryTransientGo happyTxnOracle.createTxn 8).2 = .error e →
        isOpenTransactionAlreadyExists e = true →
        (retryTransientGo happyTxnOracle.findLatestOpen 8).2 = .ok (some t) → t ≠ "" →
        (uploadDatasetCSVGo happyTxnOracle).committedTxn = none ∧
        ((retryTransientGo (happyTxnOracle.upload t) 8).2 = .ok () →
          (uploadDatasetCSVGo happyTxnOracle).uploadedTxn = some t)) ∧
      (∀ t, (retryTransientGo happyTxnOracle.createTxn 8).2 = .ok t →
        (retryTransientGo (happyTxnOracle.upload t) 8).2 = .ok () →
        (retryTransientGo (happyTxnOracle.commit t) 8).2 = .ok () →
        (uploadDatasetCSVGo happyTxnOracle).committedTxn = some t) ∧
      (∀ r, findLatestOpenTransaction
          ([⟨"t-new", "OPEN", 7⟩, ⟨"t-old", "OPEN", 3⟩] : List FTransaction) = some r →
        ∃ t ∈ ([⟨"t-new", "OPEN", 7⟩, ⟨"t-old", "OPEN", 3⟩] : List FTransaction),
          isOpenTxn t = true ∧ goTrimSpace t.rid = r ∧
          ∀ u ∈ ([⟨"t-new", "OPEN", 7⟩, ⟨"t-old", "OPEN", 3⟩] : List FTransaction),
            isOpenTxn u = true → u.createdTime ≤ t.createdTime)) :=
  ⟨by decide, C6_txn_commit_iff_created happyTxnOracle _ (by decide)⟩


/-! ### Output-sink orchestrator: stream branch and cache-read semantics -/

theorem runStreamAux_published_ok (codec : RowCodec) (m : Int)
    (enricher : String → Except GoErr EnrichResult)
    (publish : Row → Except GoErr Unit)
    (hpub : ∀ r, publish r = .ok ()) :
    ∀ emails, (runStreamAux codec m enricher publish emails).published.length
        = emails.length ∧
      (runStreamAux codec m enricher publish emails).runErr = none := by
  intro emails
  induction emails with
  | nil => exact ⟨rfl, rfl⟩
  | cons raw rest ih =>
    rw [runStreamAux, hpub]
    simp only [List.length_cons]
    exact ⟨by rw [ih.1], ih.2⟩

/-- C7 counterexample: a stream-sink run performs zero prior-record reads and
enriches every input even though the prior output holds an `ok` row for the
(only) input identifier — the orchestrator does not load an incremental cache
for stream sinks. -/
theorem C7_counterexample :
    (runFoundrySinks idCodec 0 true ["a@b.com"] (.ok [okRowFor "a@b.com"])
        (fun _ => .ok default) (fun _ => .ok ())).priorReadCalls = 0 ∧
    (runFoundrySinks idCodec 0 true ["a@b.com"] (.ok [okRowFor "a@b.com"])
        (fun _ => .ok default) (fun _ => .ok ())).enrichCalls = 1 ∧
    rowsToCache [okRowFor "a@b.com"] (emailKey (goTrimSpace "a@b.com"))
      = some (okRowFor "a@b.com") := by
  refine ⟨rfl, by decide, by decide⟩

/-- C7 (amended): a stream-sink run performs no incremental-cache read at all
(incremental mode is disabled for stream output) and publishes one record per
input; in dataset mode, the prior-snapshot cache read yields an empty cache
exactly on a 404 not-found response, and any other error — including
permission denied (403) — aborts the run. -/
theorem C7_amended (codec : RowCodec) (m : Int) (emails : List String)
    (readPrior : Except GoErr (List Row))
    (enricher : String → Except GoErr EnrichResult)
    (publish : Row → Except GoErr Unit)
    (hpub : ∀ r, publish r = .ok ()) :
    (runFoundrySinks codec m true emails readPrior enricher publish).priorReadCalls
        = 0 ∧
    (runFoundrySinks codec m true emails readPrior enricher publish).published.length
        = emails.length ∧
    (∀ e : GoErr, isNotFoundError e = false →
      (runFoundrySinks codec m false emails (.error e) enricher publish).runErr
          = some e ∧
      (runFoundrySinks codec m false emails (.error e) enricher publish).priorReadCalls
          = 1) ∧
    (∀ name code : String,
      (readExistingOutputRowsGo (.error (.http 404 name code))).2
          = .ok (fun _ => none)) := by
  refine ⟨?_, ?_, ?_, ?_⟩
  · rw [runFoundrySinks]
    simp
  · rw [runFoundrySinks]
    simp only [if_pos]
    exact (runStreamAux_published_ok codec m enricher publish hpub emails).1
  · intro e he
    have hread : (readExistingOutputRowsGo (.error e) : Nat × Except GoErr (String → Option Row)).2
        = .error e := by
      rw [readExistingOutputRowsGo]
      simp [he]
    constructor
    · rw [runFoundrySinks]
      simp only [if_neg (by simp : ¬(True = False))]
      simp [hread]
    · rw [runFoundrySinks]
      simp [hread]
  · intro name code
    rfl

/-- Witness for C7 (amended). -/
theorem C7_amended_witness :
    (∀ r : Row, (fun _ : Row => (.ok () : Except GoErr Unit)) r = .ok ()) ∧
    ((runFoundrySinks idCodec 0 true ["x@y.z"] (.ok [])
        (fun _ => .ok default) (fun _ => .ok ())).priorReadCalls = 0 ∧
      (runFoundrySinks idCodec 0 true ["x@y.z"] (.ok [])
        (fun _ => .ok default) (fun _ => .ok ())).published.length
          = (["x@y.z"] : List String).length ∧
      (∀ e : GoErr, isNotFoundError e = false →
        (runFoundrySinks idCodec 0 false ["x@y.z"] (.error e)
            (fun _ => .ok default) (fun _ => .ok ())).runErr = some e ∧
        (runFoundrySinks idCodec 0 false ["x@y.z"] (.error e)
            (fun _ => .ok default) (fun _ => .ok ())).priorReadCalls = 1) ∧
      (∀ name code : String,
        (readExistingOutputRowsGo (.error (.http 404 name code))).2
            = .ok (fun _ => none))) :=
  ⟨fun _ => rfl,
    C7_amended idCodec 0 ["x@y.z"] (.ok []) (fun _ => .ok default)
      (fun _ => .ok ()) (fun _ => rfl)⟩


/-! ### Prior-snapshot cache characterization -/

theorem getLast?_cons_of_ne_nil (a : α) (l : List α) (h : l ≠ []) :
    (a :: l).getLast? = l.getLast? := by
  rw [show a :: l = [a] ++ l from rfl, List.getLast?_append_of_ne_nil _ h]

theorem getLast?_cons_ne_none (a : α) (l : List α) : (a :: l).getLast? ≠ none := by
  induction l generalizing a with
  | nil => simp
  | cons b t ih =>
    rw [getLast?_cons_of_ne_nil a (b :: t) (by simp)]
    exact ih b

theorem rowsToCache_aux : ∀ (rows : List Row) (m : String → Option Row) (k : String),
    List.foldl
      (fun m row =>
        let key := emailKey row.Email
        if key = "" then m
        else fun k2 => if k2 = key then some row else m k2) m rows k =
    (if k = "" then m k
     else
       match (rows.filter (fun r => emailKey r.Email == k)).getLast? with
       | some r2 => some r2
       | none => m k) := by
  intro rows
  induction rows with
  | nil =>
    intro m k
    simp only [List.foldl_nil, List.filter_nil, List.getLast?_nil]
    split <;> rfl
  | cons r rest ih =>
    intro m k
    rw [List.foldl_cons, ih]
    by_cases hk : k = ""
    · subst hk
      rw [if_pos rfl, if_pos rfl]
      by_cases hkey : emailKey r.Email = ""
      · simp [hkey]
      · have h2 : ¬(("" : String) = emailKey r.Email) := fun h => hkey h.symm
        simp [hkey, h2]
    · rw [if_neg hk, if_neg hk, List.filter_cons]
      by_cases hpr : (emailKey r.Email == k) = true
      · have hkeyk : emailKey r.Email = k := beq_iff_eq.mp hpr
        rw [if_pos hpr]
        cases hfl : (rest.filter (fun x => emailKey x.Email == k)).getLast? with
        | some r2 =>
          have hne : rest.filter (fun x => emailKey x.Email == k) ≠ [] := by
            intro h0
            rw [h0] at hfl
            simp at hfl
          rw [getLast?_cons_of_ne_nil _ _ hne, hfl]
        | none =>
          have hnil : rest.filter (fun x => emailKey x.Email == k) = [] := by
            cases hc : rest.filter (fun x => emailKey x.Email == k) with
            | nil => rfl
            | cons a t =>
              rw [hc] at hfl
              exact absurd hfl (getLast?_cons_ne_none a t)
          rw [hnil]
          have hkeyne : emailKey r.Email ≠ "" := by rw [hkeyk]; exact hk
          simp [hkeyne, hkeyk, hk]
      · rw [if_neg hpr]
        have hkne : emailKey r.Email ≠ k := fun h0 => hpr (beq_iff_eq.mpr h0)
        cases hfl : (rest.filter (fun x => emailKey x.Email == k)).getLast? with
        | some r2 => rfl
        | none =>
          by_cases hkey : emailKey r.Email = ""
          · simp [hkey]
          · have h2 : ¬(k = emailKey r.Email) := fun h => hkne h.symm
            simp [hkey, h2]

/-- C10: the incremental cache built from the prior snapshot excludes every
row whose identifier trims to the empty string, and among rows sharing a
trimmed identifier the last row in the snapshot wins. -/
theorem C10_cache_last_wins (rows : List Row) (k : String) :
    rowsToCache rows "" = none ∧
    (k ≠ "" → rowsToCache rows k
        = (rows.filter (fun r => emailKey r.Email == k)).getLast?) ∧
    (∀ r, rowsToCache rows k = some r → emailKey r.Email = k ∧ k ≠ "") := by
  have haux := rowsToCache_aux rows (fun _ => none)
  have hbase : ∀ k2, rowsToCache rows k2 =
      (if k2 = "" then none
       else
         match (rows.filter (fun r => emailKey r.Email == k2)).getLast? with
         | some r2 => some r2
         | none => none) := by
    intro k2
    rw [rowsToCache, haux k2]
  refine ⟨?_, ?_, ?_⟩
  · rw [hbase ""]
    simp
  · intro hk
    rw [hbase k, if_neg hk]
    cases (rows.filter (fun r => emailKey r.Email == k)).getLast? <;> rfl
  · intro r hr
    rw [hbase k] at hr
    by_cases hk : k = ""
    · rw [if_pos hk] at hr
      exact absurd hr (by simp)
    · rw [if_neg hk] at hr
      cases hfl : (rows.filter (fun r2 => emailKey r2.Email == k)).getLast? with
      | some r2 =>
        rw [hfl] at hr
        have hr2 : r2 = r := by
          simpa using hr
        subst hr2
        have hmem : r2 ∈ rows.filter (fun r3 => emailKey r3.Email == k) :=
          List.mem_of_mem_getLast? hfl
        have := (List.mem_filter.mp hmem).2
        exact ⟨beq_iff_eq.mp this, hk⟩
      | none =>
        rw [hfl] at hr
        exact absurd hr (by simp)

/-- Witness for C10: a snapshot with an empty-trim row and a duplicate key
whose later row wins. -/
theorem C10_cache_last_wins_witness :
    (("x" : String) ≠ "" ∧ rowsToCache [okRowFor "  ", okRowFor "x", ⟨"x", "", "", "", "", "", "error", "boom", "", "", ""⟩] "x"
        = some (⟨"x", "", "", "", "", "", "error", "boom", "", "", ""⟩ : Row)) ∧
    (rowsToCache [okRowFor "  ", okRowFor "x", ⟨"x", "", "", "", "", "", "error", "boom", "", "", ""⟩] ""
        = none ∧
      (("x" : String) ≠ "" → rowsToCache [okRowFor "  ", okRowFor "x", ⟨"x", "", "", "", "", "", "error", "boom", "", "", ""⟩] "x"
          = ([okRowFor "  ", okRowFor "x", ⟨"x", "", "", "", "", "", "error", "boom", "", "", ""⟩].filter
              (fun r => emailKey r.Email == "x")).getLast?) ∧
      (∀ r, rowsToCache [okRowFor "  ", okRowFor "x", ⟨"x", "", "", "", "", "", "error", "boom", "", "", ""⟩] "x" = some r →
        emailKey r.Email = "x" ∧ ("x" : String) ≠ "")) :=
  ⟨⟨by decide, by decide⟩,
    C10_cache_last_wins [okRowFor "  ", okRowFor "x", ⟨"x", "", "", "", "", "", "error", "boom", "", "", ""⟩] "x"⟩


/-! ### Association-list and list-access helper lemmas -/

theorem lookupIdx_insertIdx_self (m : List (String × List Nat)) (key : String) (i : Nat) :
    lookupIdx (insertIdx m key i) key = some ((lookupIdx m key).getD [] ++ [i]) := by
  induction m with
  | nil => simp [insertIdx, lookupIdx]
  | cons kv rest ih =>
    rcases kv with ⟨k2, v⟩
    by_cases h : k2 = key
    · subst h
      simp [insertIdx, lookupIdx]
    · rw [insertIdx, if_neg h, lookupIdx, if_neg h, ih, lookupIdx, if_neg h]

theorem lookupIdx_insertIdx_other (m : List (String × List Nat)) (key k2 : String)
    (i : Nat) (h : k2 ≠ key) :
    lookupIdx (insertIdx m key i) k2 = lookupIdx m k2 := by
  induction m with
  | nil =>
    simp only [insertIdx, lookupIdx]
    rw [if_neg (fun h2 => h h2.symm)]
  | cons kv rest ih =>
    rcases kv with ⟨k3, v⟩
    by_cases h3 : k3 = key
    · subst h3
      rw [insertIdx, if_pos rfl, lookupIdx, lookupIdx]
      rw [if_neg (fun h2 => h h2.symm), if_neg (fun h2 => h h2.symm)]
    · rw [insertIdx, if_neg h3, lookupIdx, lookupIdx]
      by_cases h4 : k3 = k2
      · rw [if_pos h4, if_pos h4]
      · rw [if_neg h4, if_neg h4, ih]

theorem exists_getD_of_mem (l : List α) (d x : α) (h : x ∈ l) :
    ∃ j, j < l.length ∧ l.getD j d = x := by
  induction l with
  | nil => simp at h
  | cons a t ih =>
    rcases List.mem_cons.mp h with h1 | h2
    · exact ⟨0, by simp, h1.symm⟩
    · rcases ih h2 with ⟨j, hj, hx⟩
      exact ⟨j + 1, by simpa using hj, hx⟩

theorem getD_mem (l : List α) (d : α) (j : Nat) (h : j < l.length) :
    l.getD j d ∈ l := by
  rw [List.getD_eq_getElem l d h]
  exact List.getElem_mem h

theorem getD_append_left (l1 l2 : List α) (j : Nat) (d : α) (h : j < l1.length) :
    (l1 ++ l2).getD j d = l1.getD j d := by
  rw [List.getD_eq_getElem _ d (by simp; omega), List.getD_eq_getElem _ d h]
  exact List.getElem_append_left h

theorem getD_append_last (l1 : List α) (x d : α) :
    (l1 ++ [x]).getD l1.length d = x := by
  rw [List.getD_eq_getElem _ d (by simp)]
  rw [List.getElem_append_right (by omega)]
  simp

theorem setAll_eq_writeAll (v : α) (idxs : List Nat) (a : List α) :
    setAll v idxs a = writeAll (fun _ => v) idxs a := rfl

theorem setAll_length (v : α) (idxs : List Nat) (a : List α) :
    (setAll v idxs a).length = a.length := by
  rw [setAll_eq_writeAll, writeAll_length]

theorem setAll_getD_mem (v : α) (idxs : List Nat) (a : List α) (i : Nat) (d : α)
    (hmem : i ∈ idxs) (hlen : i < a.length) :
    (setAll v idxs a).getD i d = v := by
  rw [setAll_eq_writeAll, writeAll_getD_mem _ _ _ _ _ hmem hlen]

theorem setAll_getD_not_mem (v : α) (idxs : List Nat) (a : List α) (i : Nat) (d : α)
    (h : i ∉ idxs) :
    (setAll v idxs a).getD i d = a.getD i d := by
  rw [setAll_eq_writeAll, writeAll_getD_not_mem _ _ _ _ _ h]


/-! ### Planner invariant preservation -/

theorem cachedOk_eq_true (cache : String → Option Row) (key : String) (prev : Row)
    (hc : cache key = some prev)
    (hst : goEqualFold (goTrimSpace prev.Status) "ok" = true) :
    cachedOk cache key = true := by
  rw [cachedOk, hc]
  exact hst

theorem cachedOk_eq_false_none (cache : String → Option Row) (key : String)
    (hc : cache key = none) : cachedOk cache key = false := by
  rw [cachedOk, hc]

theorem cachedOk_eq_false_not_ok (cache : String → Option Row) (key : String)
    (prev : Row) (hc : cache key = some prev)
    (hst : ¬goEqualFold (goTrimSpace prev.Status) "ok" = true) :
    cachedOk cache key = false := by
  rw [cachedOk, hc]
  show goEqualFold (goTrimSpace prev.Status) "ok" = false
  cases hgo : goEqualFold (goTrimSpace prev.Status) "ok" with
  | false => rfl
  | true => exact absurd hgo hst

theorem nodup_append_singleton (l : List α) (a : α) (h1 : l.Nodup) (h2 : a ∉ l) :
    (l ++ [a]).Nodup := by
  induction l with
  | nil => simp
  | cons b t ih =>
    rw [List.cons_append, List.nodup_cons]
    refine ⟨?_, ih (List.nodup_cons.mp h1).2 (fun hm => h2 (List.mem_cons.mpr (Or.inr hm)))⟩
    intro hb
    rcases List.mem_append.mp hb with hb1 | hb2
    · exact (List.nodup_cons.mp h1).1 hb1
    · have : b = a := by simpa using hb2
      exact h2 (this ▸ List.mem_cons_self b t)

theorem buildPending_inv (emails : List String) (cache : String → Option Row)
    (k : Nat) (plan : IncrementalPlan) (raw : String)
    (hI : PlanInv emails cache k plan)
    (hraw : emails.getD k "" = raw) (hk : k < emails.length)
    (hnc : cachedOk cache (keyOf emails k) = false) :
    PlanInv emails cache (k + 1)
      (buildPending plan (emailKey (goTrimSpace raw)) (goTrimSpace raw) k) := by
  have hkeyk : keyOf emails k = emailKey (goTrimSpace raw) := by
    rw [keyOf, hraw]
  rw [buildPending]
  constructor
  case lenRows => exact hI.lenRows
  case cachedRow =>
    intro i hi prev hcp hst
    rcases Nat.lt_succ_iff_lt_or_eq.mp hi with hi2 | hi2
    · exact hI.cachedRow i hi2 prev hcp hst
    · subst hi2
      rw [cachedOk_eq_true cache (keyOf emails i) prev hcp hst] at hnc
      exact absurd hnc (by simp)
  case keysNodup =>
    by_cases hseen : (lookupIdx plan.pendingIdx (emailKey (goTrimSpace raw))).isSome = true
    · simpa [hseen] using hI.keysNodup
    · have hseen2 : (lookupIdx plan.pendingIdx (emailKey (goTrimSpace raw))).isSome = false := by
        cases hc2 : (lookupIdx plan.pendingIdx (emailKey (goTrimSpace raw))).isSome with
        | false => rfl
        | true => exact absurd hc2 hseen
      simp only [hseen2, Bool.false_eq_true, if_neg, ite_false]
      rw [List.map_append]
      apply nodup_append_singleton _ _ hI.keysNodup
      intro hmem
      rcases List.mem_map.mp (by simpa using hmem) with ⟨p, hp, hpk⟩
      rcases exists_getD_of_mem plan.pendingEmails "" p hp with ⟨j, hj, hgd⟩
      have : (lookupIdx plan.pendingIdx (emailKey (goTrimSpace raw))).isSome = true :=
        (hI.lookupKeys _).mpr ⟨j, hj, by rw [hgd, hpk]⟩
      rw [this] at hseen2
      exact absurd hseen2 (by simp)
  case lookupSound =>
    intro key2 l hl
    by_cases hkc : key2 = emailKey (goTrimSpace raw)
    · subst hkc
      rw [lookupIdx_insertIdx_self] at hl
      have hl2 : l = (lookupIdx plan.pendingIdx (emailKey (goTrimSpace raw))).getD [] ++ [k] := by
        simpa using hl.symm
      subst hl2
      refine ⟨by simp, ?_⟩
      intro i hi
      rcases List.mem_append.mp hi with hi1 | hi2
      · cases hlo : lookupIdx plan.pendingIdx (emailKey (goTrimSpace raw)) with
        | none => rw [hlo] at hi1; simp at hi1
        | some l0 =>
          rw [hlo] at hi1
          simp only [Option.getD_some] at hi1
          have := (hI.lookupSound _ l0 hlo).2 i hi1
          exact ⟨by omega, this.2.1, this.2.2⟩
      · have : i = k := by simpa using hi2
        subst this
        exact ⟨by omega, hnc, hkeyk⟩
    · rw [lookupIdx_insertIdx_other _ _ _ _ hkc] at hl
      have := hI.lookupSound key2 l hl
      refine ⟨this.1, ?_⟩
      intro i hi
      have h2 := this.2 i hi
      exact ⟨by omega, h2.2.1, h2.2.2⟩
  case lookupKeys =>
    intro key2
    by_cases hkc : key2 = emailKey (goTrimSpace raw)
    · subst hkc
      rw [lookupIdx_insertIdx_self]
      simp only [Option.isSome_some, true_iff]
      by_cases hseen : (lookupIdx plan.pendingIdx (emailKey (goTrimSpace raw))).isSome = true
      · rcases (hI.lookupKeys _).mp hseen with ⟨j, hj, hgd⟩
        refine ⟨j, ?_, ?_⟩
        · simp only [hseen, if_pos]
          exact hj
        · simp only [hseen, if_pos]
          exact hgd
      · have hseen2 : (lookupIdx plan.pendingIdx (emailKey (goTrimSpace raw))).isSome = false := by
          cases hc2 : (lookupIdx plan.pendingIdx (emailKey (goTrimSpace raw))).isSome with
          | false => rfl
          | true => exact absurd hc2 hseen
        refine ⟨plan.pendingEmails.length, ?_, ?_⟩
        · simp [hseen2]
        · simp only [hseen2, Bool.false_eq_true, ite_false]
          rw [getD_append_last]
    · rw [lookupIdx_insertIdx_other _ _ _ _ hkc, hI.lookupKeys key2]
      by_cases hseen : (lookupIdx plan.pendingIdx (emailKey (goTrimSpace raw))).isSome = true
      · simp only [hseen, if_pos, ite_true]
      · have hseen2 : (lookupIdx plan.pendingIdx (emailKey (goTrimSpace raw))).isSome = false := by
          cases hc2 : (lookupIdx plan.pendingIdx (emailKey (goTrimSpace raw))).isSome with
          | false => rfl
          | true => exact absurd hc2 hseen
        simp only [hseen2, Bool.false_eq_true, ite_false]
        constructor
        · rintro ⟨j, hj, hgd⟩
          refine ⟨j, by simpa using Nat.lt_succ_of_lt hj, ?_⟩
          rw [getD_append_left _ _ _ _ hj]
          exact hgd
        · rintro ⟨j, hj, hgd⟩
          rw [List.length_append, List.length_singleton] at hj
          rcases Nat.lt_succ_iff_lt_or_eq.mp hj with hj2 | hj2
          · refine ⟨j, hj2, ?_⟩
            rw [getD_append_left _ _ _ _ hj2] at hgd
            exact hgd
          · subst hj2
            rw [getD_append_last] at hgd
            exact absurd hgd.symm hkc
  case pendingComplete =>
    intro i hi hinc
    rcases Nat.lt_succ_iff_lt_or_eq.mp hi with hi2 | hi2
    · have hold := hI.pendingComplete i hi2 hinc
      by_cases hkc : keyOf emails i = emailKey (goTrimSpace raw)
      · rw [hkc, lookupIdx_insertIdx_self]
        simp only [Option.getD_some]
        rw [← hkc]
        exact List.mem_append.mpr (Or.inl hold)
      · rw [lookupIdx_insertIdx_other _ _ _ _ hkc]
        exact hold
    · subst hi2
      rw [hkeyk, lookupIdx_insertIdx_self]
      simp only [Option.getD_some]
      exact List.mem_append.mpr (Or.inr (by simp))
  case pendingFromInput =>
    intro j hj
    by_cases hseen : (lookupIdx plan.pendingIdx (emailKey (goTrimSpace raw))).isSome = true
    · rw [if_pos hseen] at hj ⊢
      rcases hI.pendingFromInput j hj with ⟨i, hi, hi2, hi3⟩
      exact ⟨i, by omega, hi2, hi3⟩
    · have hseen2 : (lookupIdx plan.pendingIdx (emailKey (goTrimSpace raw))).isSome = false := by
        cases hc2 : (lookupIdx plan.pendingIdx (emailKey (goTrimSpace raw))).isSome with
        | false => rfl
        | true => exact absurd hc2 hseen
      simp only [hseen2, Bool.false_eq_true, ite_false] at hj ⊢
      rw [List.length_append, List.length_singleton] at hj
      rcases Nat.lt_succ_iff_lt_or_eq.mp hj with hj2 | hj2
      · rcases hI.pendingFromInput j hj2 with ⟨i, hi, hi2, hi3⟩
        refine ⟨i, by omega, hi2, ?_⟩
        rw [getD_append_left _ _ _ _ hj2]
        exact hi3
      · subst hj2
        refine ⟨k, by omega, hnc, ?_⟩
        rw [getD_append_last, hraw]


theorem buildStep_inv (emails : List String) (cache : String → Option Row)
    (k : Nat) (plan : IncrementalPlan) (raw : String)
    (hI : PlanInv emails cache k plan)
    (hraw : emails.getD k "" = raw) (hk : k < emails.length) :
    PlanInv emails cache (k + 1) (buildStep cache plan k raw) := by
  have hkeyk : keyOf emails k = emailKey (goTrimSpace raw) := by
    rw [keyOf, hraw]
  rw [buildStep]
  cases hc : cache (emailKey (goTrimSpace raw)) with
  | none =>
    exact buildPending_inv emails cache k plan raw hI hraw hk
      (by rw [hkeyk]; exact cachedOk_eq_false_none cache _ hc)
  | some prev =>
    dsimp only
    by_cases hst : goEqualFold (goTrimSpace prev.Status) "ok" = true
    · rw [if_pos hst]
      have hctrue : cachedOk cache (keyOf emails k) = true := by
        rw [hkeyk]
        exact cachedOk_eq_true cache _ prev hc hst
      refine ⟨?_, ?_, ?_, ?_, ?_, ?_, ?_⟩
      · simp only [List.length_set]
        exact hI.lenRows
      · intro i hi prev2 hcp hst2
        rcases Nat.lt_succ_iff_lt_or_eq.mp hi with hi2 | hi2
        · rw [getD_set_other _ _ _ _ _ (by omega)]
          exact hI.cachedRow i hi2 prev2 hcp hst2
        · subst hi2
          rw [getD_set_self _ _ _ _ (by rw [hI.lenRows]; exact hk)]
          have hpe : prev2 = prev := by
            rw [hkeyk] at hcp
            rw [hcp] at hc
            exact (Option.some_injective _ hc.symm).symm
          subst hpe
          rw [hraw]
      · exact hI.keysNodup
      · intro key2 l hl
        have := hI.lookupSound key2 l hl
        refine ⟨this.1, ?_⟩
        intro i hi
        have h2 := this.2 i hi
        exact ⟨by omega, h2.2.1, h2.2.2⟩
      · exact hI.lookupKeys
      · intro i hi hinc
        rcases Nat.lt_succ_iff_lt_or_eq.mp hi with hi2 | hi2
        · exact hI.pendingComplete i hi2 hinc
        · subst hi2
          rw [hctrue] at hinc
          exact absurd hinc (by simp)
      · intro j hj
        rcases hI.pendingFromInput j hj with ⟨i, hi, hi2, hi3⟩
        exact ⟨i, by omega, hi2, hi3⟩
    · rw [if_neg hst]
      exact buildPending_inv emails cache k plan raw hI hraw hk
        (by rw [hkeyk]; exact cachedOk_eq_false_not_ok cache _ prev hc hst)

theorem buildAux_inv (emails : List String) (cache : String → Option Row) :
    ∀ (rest : List String) (k : Nat) (plan : IncrementalPlan),
      k ≤ emails.length → emails.drop k = rest → PlanInv emails cache k plan →
      PlanInv emails cache emails.length (buildAux cache plan k rest) := by
  intro rest
  induction rest with
  | nil =>
    intro k plan hk hdrop hI
    have : emails.length ≤ k := by
      rwa [List.drop_eq_nil_iff] at hdrop
    have hkeq : k = emails.length := by omega
    subst hkeq
    exact hI
  | cons raw rest2 ih =>
    intro k plan hk hdrop hI
    have hklt : k < emails.length := by
      by_contra hcon
      have : emails.drop k = [] := by
        rw [List.drop_eq_nil_iff]
        omega
      rw [this] at hdrop
      exact absurd hdrop (by simp)
    have hdecomp := List.drop_eq_getElem_cons hklt
    rw [hdrop] at hdecomp
    have hraw : emails.getD k "" = raw := by
      rw [List.getD_eq_getElem _ _ hklt]
      exact (List.cons.injEq _ _ _ _ ▸ hdecomp).1.symm
    have hrest : emails.drop (k + 1) = rest2 := by
      have := (List.cons.injEq _ _ _ _ ▸ hdecomp).2
      exact this.symm
    rw [buildAux]
    exact ih (k + 1) (buildStep cache plan k raw) (by omega) hrest
      (buildStep_inv emails cache k plan raw hI hraw hklt)

theorem buildIncrementalPlan_inv (emails : List String) (cache : String → Option Row) :
    PlanInv emails cache emails.length (buildIncrementalPlan emails cache) := by
  rw [buildIncrementalPlan]
  apply buildAux_inv emails cache emails 0 _ (by omega) (by simp)
  constructor
  case lenRows => simp
  case cachedRow => intro i hi; omega
  case keysNodup => simp
  case lookupSound => intro key l hl; simp [lookupIdx] at hl
  case lookupKeys =>
    intro key
    simp [lookupIdx]
  case pendingComplete => intro i hi; omega
  case pendingFromInput => intro j hj; simp at hj


/-! ### Applying fresh rows to the plan -/

theorem applyAux_spec (pIdx : List (String × List Nat)) (fresh : List Row) :
    ∀ (pend : List String) (j0 : Nat) (rows : List Row),
      (∀ p ∈ pend, ∃ l, lookupIdx pIdx (emailKey p) = some l ∧ l ≠ []) →
      ∃ final, applyAux pIdx fresh j0 pend rows = .ok final ∧
        final.length = rows.length ∧
        (∀ i d, (∀ p ∈ pend, i ∉ (lookupIdx pIdx (emailKey p)).getD []) →
          final.getD i d = rows.getD i d) ∧
        (∀ j, j < pend.length →
          ∀ i ∈ (lookupIdx pIdx (emailKey (pend.getD j ""))).getD [],
            i < rows.length →
            (∀ j2, j < j2 → j2 < pend.length →
              i ∉ (lookupIdx pIdx (emailKey (pend.getD j2 ""))).getD []) →
            final.getD i default = { fresh.getD (j0 + j) default with
              Email := goTrimSpace (pend.getD j "") }) := by
  intro pend
  induction pend with
  | nil =>
    intro j0 rows _
    refine ⟨rows, rfl, rfl, fun i d _ => rfl, ?_⟩
    intro j hj
    simp at hj
  | cons p rest ih =>
    intro j0 rows hlook
    rcases hlook p (by simp) with ⟨l, hl, hlne⟩
    have hlempty : ¬(l.isEmpty = true) := by
      intro h0
      exact hlne (List.isEmpty_iff.mp h0)
    have hstep : applyAux pIdx fresh j0 (p :: rest) rows =
        applyAux pIdx fresh (j0 + 1) rest
          (setAll { fresh.getD j0 default with Email := goTrimSpace p } l rows) := by
      rw [applyAux, hl]
      dsimp only
      rw [if_neg hlempty]
    set row := { fresh.getD j0 default with Email := goTrimSpace p } with hrow
    rcases ih (j0 + 1) (setAll row l rows)
        (fun p2 hp2 => hlook p2 (by simp [hp2])) with
      ⟨final, hfin, hflen, hunch, hwrite⟩
    refine ⟨final, by rw [hstep, hfin], ?_, ?_, ?_⟩
    · rw [hflen, setAll_length]
    · intro i d havoid
      have havoidp : i ∉ l := by
        have := havoid p (by simp)
        rw [hl] at this
        simpa using this
      rw [hunch i d (fun p2 hp2 => havoid p2 (by simp [hp2])),
        setAll_getD_not_mem _ _ _ _ _ havoidp]
    · intro j hj i hi hilen hlater
      cases j with
      | zero =>
        have hil : i ∈ l := by
          have : (lookupIdx pIdx (emailKey ((p :: rest).getD 0 ""))).getD [] = l := by
            show (lookupIdx pIdx (emailKey p)).getD [] = l
            rw [hl]
            rfl
          rw [this] at hi
          exact hi
        have havoidrest : ∀ p2 ∈ rest, i ∉ (lookupIdx pIdx (emailKey p2)).getD [] := by
          intro p2 hp2
          rcases exists_getD_of_mem rest "" p2 hp2 with ⟨j2, hj2, hgd⟩
          have := hlater (j2 + 1) (by omega) (by simpa using hj2)
          rw [show (p :: rest).getD (j2 + 1) "" = rest.getD j2 "" from rfl, hgd] at this
          exact this
        rw [hunch i default havoidrest,
          setAll_getD_mem _ _ _ _ _ hil (by rw [setAll_length] at *; exact hilen)]
        simp only [Nat.add_zero]
        rfl
      | succ j =>
        have hj2 : j < rest.length := by simpa using hj
        have hi2 : i ∈ (lookupIdx pIdx (emailKey (rest.getD j ""))).getD [] := hi
        have hlater2 : ∀ j3, j < j3 → j3 < rest.length →
            i ∉ (lookupIdx pIdx (emailKey (rest.getD j3 ""))).getD [] := by
          intro j3 hj3 hj3len
          have := hlater (j3 + 1) (by omega) (by simpa using hj3len)
          exact this
        have := hwrite j hj2 i hi2 (by rw [setAll_length]; exact hilen) hlater2
        rw [show j0 + (j + 1) = j0 + 1 + j by omega]
        exact this


theorem nodup_map_getD_inj (l : List α) (f : α → β) (d : α)
    (h : (l.map f).Nodup) (j1 j2 : Nat) (h1 : j1 < l.length) (h2 : j2 < l.length)
    (heq : f (l.getD j1 d) = f (l.getD j2 d)) : j1 = j2 := by
  rw [List.getD_eq_getElem l d h1, List.getD_eq_getElem l d h2] at heq
  have hm1 : j1 < (l.map f).length := by simpa using h1
  have hm2 : j2 < (l.map f).length := by simpa using h2
  have hme : (l.map f)[j1] = (l.map f)[j2] := by
    rw [List.getElem_map, List.getElem_map]
    exact heq
  exact (List.Nodup.getElem_inj_iff h).mp hme

theorem applyEnrichedRows_spec (emails : List String) (cache : String → Option Row)
    (fresh : List Row)
    (hlen : fresh.length = (buildIncrementalPlan emails cache).pendingEmails.length) :
    ∃ final, applyEnrichedRows (buildIncrementalPlan emails cache) fresh = .ok final ∧
      final.length = emails.length ∧
      (∀ i, i < emails.length → cachedOk cache (keyOf emails i) = true →
        final.getD i default = (buildIncrementalPlan emails cache).rows.getD i default) ∧
      (∀ i, i < emails.length → cachedOk cache (keyOf emails i) = false →
        ∃ j, j < (buildIncrementalPlan emails cache).pendingEmails.length ∧
          emailKey ((buildIncrementalPlan emails cache).pendingEmails.getD j "")
            = keyOf emails i ∧
          final.getD i default = { fresh.getD j default with
            Email := goTrimSpace ((buildIncrementalPlan emails cache).pendingEmails.getD j "") }) := by
  set plan := buildIncrementalPlan emails cache with hplan
  have hI := buildIncrementalPlan_inv emails cache
  rw [← hplan] at hI
  have hlook : ∀ p ∈ plan.pendingEmails,
      ∃ l, lookupIdx plan.pendingIdx (emailKey p) = some l ∧ l ≠ [] := by
    intro p hp
    rcases exists_getD_of_mem plan.pendingEmails "" p hp with ⟨j, hj, hgd⟩
    have hsome : (lookupIdx plan.pendingIdx (emailKey p)).isSome = true :=
      (hI.lookupKeys _).mpr ⟨j, hj, by rw [hgd]⟩
    cases hlo : lookupIdx plan.pendingIdx (emailKey p) with
    | none => rw [hlo] at hsome; simp at hsome
    | some l0 => exact ⟨l0, rfl, (hI.lookupSound _ l0 hlo).1⟩
  rcases applyAux_spec plan.pendingIdx fresh plan.pendingEmails 0 plan.rows hlook with
    ⟨final, hfin, hflen, hunch, hwrite⟩
  refine ⟨final, ?_, ?_, ?_, ?_⟩
  · rw [applyEnrichedRows, if_neg (fun h => h hlen)]
    exact hfin
  · rw [hflen, hI.lenRows]
  · intro i hi hc
    apply hunch
    intro p hp hmem
    cases hlo : lookupIdx plan.pendingIdx (emailKey p) with
    | none => rw [hlo] at hmem; simp at hmem
    | some l0 =>
      rw [hlo] at hmem
      simp only [Option.getD_some] at hmem
      have hsnd := (hI.lookupSound _ l0 hlo).2 i hmem
      rw [hsnd.2.1] at hc
      exact absurd hc (by simp)
  · intro i hi hnc
    have hmem := hI.pendingComplete i hi hnc
    cases hlo : lookupIdx plan.pendingIdx (keyOf emails i) with
    | none => rw [hlo] at hmem; simp at hmem
    | some l0 =>
      have hsome : (lookupIdx plan.pendingIdx (keyOf emails i)).isSome = true := by
        rw [hlo]; rfl
      rcases (hI.lookupKeys _).mp hsome with ⟨j, hj, hkeyj⟩
      refine ⟨j, hj, hkeyj, ?_⟩
      have hw := hwrite j hj i ?_ ?_ ?_
      · rw [hw]
        simp only [Nat.zero_add]
      · rw [hkeyj]
        exact hmem
      · rw [hI.lenRows]
        exact hi
      · intro j2 hjj2 hj2 hmem2
        cases hlo2 : lookupIdx plan.pendingIdx (emailKey (plan.pendingEmails.getD j2 "")) with
        | none => rw [hlo2] at hmem2; simp at hmem2
        | some l2 =>
          rw [hlo2] at hmem2
          simp only [Option.getD_some] at hmem2
          have hsnd2 := (hI.lookupSound _ l2 hlo2).2 i hmem2
          have hkey2 : emailKey (plan.pendingEmails.getD j2 "") = keyOf emails i :=
            hsnd2.2.2.symm
          have : j = j2 := by
            apply nodup_map_getD_inj plan.pendingEmails emailKey "" hI.keysNodup j j2 hj hj2
            rw [hkeyj, hkey2]
          omega


/-! ### Incremental plan claims -/

/-- C5 counterexample: for the input `" a@b.com "` (surrounding whitespace)
whose cache holds an `ok` row under the trimmed key, the reused row's
identifier is refreshed to the TRIMMED input `"a@b.com"`, not to the current
input's exact string `" a@b.com "` — the claim as stated is false. -/
theorem C5_counterexample :
    ceCache (emailKey (goTrimSpace " a@b.com ")) = some (okRowFor "cached@old") ∧
    goEqualFold (goTrimSpace (okRowFor "cached@old").Status) "ok" = true ∧
    ((buildIncrementalPlan [" a@b.com "] ceCache).rows.getD 0 default).Email
      = "a@b.com" ∧
    ("a@b.com" : String) ≠ " a@b.com " := by
  refine ⟨by decide, by decide, by decide, by decide⟩

/-- C5 (amended): the plan reuses a prior cached row verbatim — with only the
identifier field refreshed to the TRIMMED current input string — exactly when
the cache holds an `ok`-status row for the trimmed identifier; every other
identifier is added to the pending set, deduplicated (one pending entry per
key), and applying the fresh rows writes that identifier's one fresh row
(identifier refreshed) to every one of its input positions. -/
theorem C5_plan_reuse_amended (emails : List String) (cache : String → Option Row)
    (fresh : List Row)
    (hlen : fresh.length = (buildIncrementalPlan emails cache).pendingEmails.length) :
    (buildIncrementalPlan emails cache).pendingEmails.Nodup ∧
    ∃ final, applyEnrichedRows (buildIncrementalPlan emails cache) fresh = .ok final ∧
      final.length = emails.length ∧
      (∀ i, i < emails.length → ∀ prev, cache (keyOf emails i) = some prev →
        goEqualFold (goTrimSpace prev.Status) "ok" = true →
        final.getD i default = { prev with Email := goTrimSpace (emails.getD i "") }) ∧
      (∀ i, i < emails.length → cachedOk cache (keyOf emails i) = false →
        ∃ j, j < (buildIncrementalPlan emails cache).pendingEmails.length ∧
          emailKey ((buildIncrementalPlan emails cache).pendingEmails.getD j "")
            = keyOf emails i ∧
          final.getD i default = { fresh.getD j default with
            Email := goTrimSpace
              ((buildIncrementalPlan emails cache).pendingEmails.getD j "") }) ∧
      (∀ i1 i2, i1 < emails.length → i2 < emails.length →
        cachedOk cache (keyOf emails i1) = false →
        cachedOk cache (keyOf emails i2) = false →
        keyOf emails i1 = keyOf emails i2 →
        final.getD i1 default = final.getD i2 default) := by
  have hI := buildIncrementalPlan_inv emails cache
  rcases applyEnrichedRows_spec emails cache fresh hlen with
    ⟨final, hfin, hflen, hcached, hpend⟩
  refine ⟨List.Nodup.of_map _ hI.keysNodup, final, hfin, hflen, ?_, hpend, ?_⟩
  · intro i hi prev hcp hst
    rw [hcached i hi (cachedOk_eq_true cache _ prev hcp hst)]
    exact hI.cachedRow i hi prev hcp hst
  · intro i1 i2 h1 h2 hnc1 hnc2 hkeq
    rcases hpend i1 h1 hnc1 with ⟨j1, hj1, hk1, hv1⟩
    rcases hpend i2 h2 hnc2 with ⟨j2, hj2, hk2, hv2⟩
    have hjeq : j1 = j2 :=
      nodup_map_getD_inj _ emailKey "" hI.keysNodup j1 j2 hj1 hj2
        (by rw [hk1, hk2, hkeq])
    subst hjeq
    rw [hv1, hv2]

/-- Witness for C5 (amended) at one uncached identifier. -/
theorem C5_plan_reuse_amended_witness :
    ([okRowFor "a@b.com"] : List Row).length
      = (buildIncrementalPlan ["a@b.com"] (fun _ => none)).pendingEmails.length ∧
    ((buildIncrementalPlan ["a@b.com"] (fun _ => none)).pendingEmails.Nodup ∧
      ∃ final, applyEnrichedRows (buildIncrementalPlan ["a@b.com"] (fun _ => none))
          [okRowFor "a@b.com"] = .ok final ∧
        final.length = (["a@b.com"] : List String).length ∧
        (∀ i, i < (["a@b.com"] : List String).length →
          ∀ prev, (fun _ => (none : Option Row)) (keyOf ["a@b.com"] i) = some prev →
          goEqualFold (goTrimSpace prev.Status) "ok" = true →
          final.getD i default
            = { prev with Email := goTrimSpace ((["a@b.com"] : List String).getD i "") }) ∧
        (∀ i, i < (["a@b.com"] : List String).length →
          cachedOk (fun _ => none) (keyOf ["a@b.com"] i) = false →
          ∃ j, j < (buildIncrementalPlan ["a@b.com"] (fun _ => none)).pendingEmails.length ∧
            emailKey ((buildIncrementalPlan ["a@b.com"] (fun _ => none)).pendingEmails.getD j "")
              = keyOf ["a@b.com"] i ∧
            final.getD i default = { ([okRowFor "a@b.com"] : List Row).getD j default with
              Email := goTrimSpace
                ((buildIncrementalPlan ["a@b.com"] (fun _ => none)).pendingEmails.getD j "") }) ∧
        (∀ i1 i2, i1 < (["a@b.com"] : List String).length →
          i2 < (["a@b.com"] : List String).length →
          cachedOk (fun _ => none) (keyOf ["a@b.com"] i1) = false →
          cachedOk (fun _ => none) (keyOf ["a@b.com"] i2) = false →
          keyOf ["a@b.com"] i1 = keyOf ["a@b.com"] i2 →
          final.getD i1 default = final.getD i2 default)) :=
  ⟨by decide,
    C5_plan_reuse_amended ["a@b.com"] (fun _ => none) [okRowFor "a@b.com"] (by decide)⟩


/-! ### Enrichment of pending identifiers under a successful enricher -/

theorem keyOf_eq (emails : List String) (i : Nat) :
    keyOf emails i = goTrimSpace (emails.getD i "") := by
  rw [keyOf, emailKey, goTrimSpace_idem]

theorem rowFromWorkerResult_ok_fields (codec : RowCodec) (raw : String)
    (r : EnrichResult) :
    (rowFromWorkerResult codec ⟨raw, r, none⟩).Status = "ok" ∧
    (rowFromWorkerResult codec ⟨raw, r, none⟩).Email = goTrimSpace raw := by
  constructor <;> rfl

theorem enrichEmailOne_ok (codec : RowCodec) (m : Int)
    (enricher : String → Except GoErr EnrichResult) (raw : String) (r : EnrichResult)
    (hne : goTrimSpace raw ≠ "") (hok : enricher (goTrimSpace raw) = .ok r) :
    enrichEmailOne codec m enricher raw =
      (rowFromWorkerResult codec ⟨raw, r, none⟩, 1) := by
  have hep : emailProcessor enricher raw = .ok r := by
    simp [emailProcessor, hne, hok]
  have hretry : processWithRetryGo m (fun _ => emailProcessor enricher raw) =
      (1, .ok r) :=
    processWithRetryGo_ok m r _ hep
  rw [enrichEmailOne, hretry]
  simp [hne]

theorem enrichEmailsGo_spec (codec : RowCodec) (m : Int)
    (enricher : String → Except GoErr EnrichResult) (pend : List String)
    (hpne : ∀ p ∈ pend, goTrimSpace p ≠ "")
    (hok : ∀ s, ∃ r, enricher s = .ok r) :
    (enrichEmailsGo codec m enricher pend).1.length = pend.length ∧
    (enrichEmailsGo codec m enricher pend).2 = pend.length ∧
    ∀ j, j < pend.length →
      ((enrichEmailsGo codec m enricher pend).1.getD j default).Status = "ok" ∧
      ((enrichEmailsGo codec m enricher pend).1.getD j default).Email
        = goTrimSpace (pend.getD j "") := by
  induction pend with
  | nil =>
    refine ⟨rfl, rfl, ?_⟩
    intro j hj
    simp at hj
  | cons p rest ih =>
    have hp := hpne p (by simp)
    rcases hok (goTrimSpace p) with ⟨r, hr⟩
    have hone := enrichEmailOne_ok codec m enricher p r hp hr
    rcases ih (fun p2 hp2 => hpne p2 (by simp [hp2])) with ⟨ihlen, ihcalls, ihrows⟩
    have hunf : enrichEmailsGo codec m enricher (p :: rest) =
        ((enrichEmailOne codec m enricher p).1 :: (enrichEmailsGo codec m enricher rest).1,
          (enrichEmailOne codec m enricher p).2 + (enrichEmailsGo codec m enricher rest).2) := by
      rw [enrichEmailsGo]
    refine ⟨?_, ?_, ?_⟩
    · rw [hunf]
      simp [ihlen]
    · rw [hunf]
      simp only [hone, ihcalls]
      simp
      omega
    · intro j hj
      rw [hunf]
      cases j with
      | zero =>
        simp only [hone]
        exact rowFromWorkerResult_ok_fields codec p r
      | succ j =>
        have hj2 : j < rest.length := by simpa using hj
        exact ihrows j hj2

/-! ### Dataset-mode run under a successful enricher -/

theorem cachedOk_true_elim (cache : String → Option Row) (key : String)
    (h : cachedOk cache key = true) :
    ∃ prev, cache key = some prev ∧
      goEqualFold (goTrimSpace prev.Status) "ok" = true := by
  rw [cachedOk] at h
  cases hc : cache key with
  | none => rw [hc] at h; simp at h
  | some prev =>
    rw [hc] at h
    exact ⟨prev, rfl, h⟩

theorem runDatasetCore_all_ok (codec : RowCodec) (m : Int) (emails : List String)
    (cache : String → Option Row) (enricher : String → Except GoErr EnrichResult)
    (hne : ∀ e ∈ emails, goTrimSpace e ≠ "")
    (hok : ∀ s, ∃ r, enricher s = .ok r)
    (hcache : ∀ k r, cache k = some r → r.Status = "ok") :
    ∃ rows, runDatasetCore codec m emails cache enricher
        = .ok (rows, (buildIncrementalPlan emails cache).pendingEmails.length) ∧
      rows.length = emails.length ∧
      ∀ i, i < emails.length → (rows.getD i default).Status = "ok" ∧
        (rows.getD i default).Email = goTrimSpace (emails.getD i "") := by
  set plan := buildIncrementalPlan emails cache with hplan
  have hI := buildIncrementalPlan_inv emails cache
  rw [← hplan] at hI
  have hpne : ∀ p ∈ plan.pendingEmails, goTrimSpace p ≠ "" := by
    intro p hp
    rcases exists_getD_of_mem plan.pendingEmails "" p hp with ⟨j, hj, hgd⟩
    rcases hI.pendingFromInput j hj with ⟨i2, hi2, _, hval⟩
    rw [← hgd, hval, goTrimSpace_idem]
    exact hne _ (getD_mem emails "" i2 hi2)
  cases hpe : plan.pendingEmails.isEmpty with
  | true =>
    have hnil : plan.pendingEmails = [] := List.isEmpty_iff.mp hpe
    have hrun : runDatasetCore codec m emails cache enricher = .ok (plan.rows, 0) := by
      rw [runDatasetCore, ← hplan, if_pos hpe]
    refine ⟨plan.rows, ?_, hI.lenRows, ?_⟩
    · rw [hrun, hnil]
      rfl
    · intro i hi
      have hcac : cachedOk cache (keyOf emails i) = true := by
        cases hco : cachedOk cache (keyOf emails i) with
        | true => rfl
        | false =>
          have hmem := hI.pendingComplete i hi hco
          cases hlo : lookupIdx plan.pendingIdx (keyOf emails i) with
          | none => rw [hlo] at hmem; simp at hmem
          | some l0 =>
            have hsome : (lookupIdx plan.pendingIdx (keyOf emails i)).isSome = true := by
              rw [hlo]; rfl
            rcases (hI.lookupKeys _).mp hsome with ⟨j, hj, _⟩
            rw [hnil] at hj
            simp at hj
      rcases cachedOk_true_elim cache _ hcac with ⟨prev, hcp, hst⟩
      rw [hI.cachedRow i hi prev hcp hst]
      exact ⟨hcache _ prev hcp, rfl⟩
  | false =>
    rcases enrichEmailsGo_spec codec m enricher plan.pendingEmails hpne hok with
      ⟨helen, hecalls, herows⟩
    rcases applyEnrichedRows_spec emails cache
        (enrichEmailsGo codec m enricher plan.pendingEmails).1 (by rw [helen, hplan]) with
      ⟨final, hfin, hflen, hcached, hpend⟩
    rw [← hplan] at hfin
    have hrun : runDatasetCore codec m emails cache enricher
        = .ok (final, plan.pendingEmails.length) := by
      rw [runDatasetCore, ← hplan, if_neg (by rw [hpe]; simp)]
      dsimp only
      rw [hfin]
      dsimp only
      rw [hecalls]
    refine ⟨final, hrun, hflen, ?_⟩
    intro i hi
    cases hco : cachedOk cache (keyOf emails i) with
    | true =>
      rcases cachedOk_true_elim cache _ hco with ⟨prev, hcp, hst⟩
      rw [hcached i hi hco, ← hplan, hI.cachedRow i hi prev hcp hst]
      exact ⟨hcache _ prev hcp, rfl⟩
    | false =>
      rcases hpend i hi hco with ⟨j, hj, hkey, hval⟩
      rw [← hplan] at hj hkey hval
      rw [hval]
      constructor
      · show ((enrichEmailsGo codec m enricher plan.pendingEmails).1.getD j default).Status = "ok"
        exact (herows j hj).1
      · show goTrimSpace (plan.pendingEmails.getD j "") = goTrimSpace (emails.getD i "")
        have : goTrimSpace (plan.pendingEmails.getD j "") = emailKey (plan.pendingEmails.getD j "") := rfl
        rw [this, hkey, keyOf_eq]


/-! ### Pending-set characterizations for the idempotence argument -/

theorem pending_empty (emails : List String) (cache : String → Option Row)
    (hcached : ∀ i, i < emails.length → cachedOk cache (keyOf emails i) = true) :
    (buildIncrementalPlan emails cache).pendingEmails = [] := by
  have hI := buildIncrementalPlan_inv emails cache
  cases hpe : (buildIncrementalPlan emails cache).pendingEmails with
  | nil => rfl
  | cons p rest =>
    have h0 : 0 < (buildIncrementalPlan emails cache).pendingEmails.length := by
      rw [hpe]; simp
    rcases hI.pendingFromInput 0 h0 with ⟨i, hi, hnc, _⟩
    rw [hcached i hi] at hnc
    exact absurd hnc (by simp)

theorem length_one_eq (l : List α) (d : α) (h : l.length = 1) : l = [l.getD 0 d] := by
  cases l with
  | nil => simp at h
  | cons a t =>
    cases t with
    | nil => rfl
    | cons b t2 => simp at h

theorem pending_single (emails : List String) (cache : String → Option Row)
    (x : String)
    (hcached : ∀ i, i < emails.length → cachedOk cache (keyOf emails i) = true)
    (hxnc : cachedOk cache (keyOf (emails ++ [x]) emails.length) = false) :
    (buildIncrementalPlan (emails ++ [x]) cache).pendingEmails = [goTrimSpace x] := by
  have hI := buildIncrementalPlan_inv (emails ++ [x]) cache
  have hlen3 : (emails ++ [x]).length = emails.length + 1 := by simp
  have hkey_left : ∀ i, i < emails.length → keyOf (emails ++ [x]) i = keyOf emails i := by
    intro i hi
    rw [keyOf, keyOf, getD_append_left _ _ _ _ hi]
  have hallval : ∀ j, j < (buildIncrementalPlan (emails ++ [x]) cache).pendingEmails.length →
      (buildIncrementalPlan (emails ++ [x]) cache).pendingEmails.getD j "" = goTrimSpace x := by
    intro j hj
    rcases hI.pendingFromInput j hj with ⟨i, hi, hnc, hval⟩
    rw [hlen3] at hi
    rcases Nat.lt_succ_iff_lt_or_eq.mp hi with hi2 | hi2
    · rw [hkey_left i hi2, hcached i hi2] at hnc
      exact absurd hnc (by simp)
    · subst hi2
      rw [hval, getD_append_last]
  have hlen_le : (buildIncrementalPlan (emails ++ [x]) cache).pendingEmails.length ≤ 1 := by
    by_contra hcon
    have h2 : 2 ≤ (buildIncrementalPlan (emails ++ [x]) cache).pendingEmails.length := by omega
    have heq01 : (0 : Nat) = 1 := by
      apply nodup_map_getD_inj _ emailKey "" hI.keysNodup 0 1 (by omega) (by omega)
      rw [hallval 0 (by omega), hallval 1 (by omega)]
    simp at heq01
  have hlen_ge : 1 ≤ (buildIncrementalPlan (emails ++ [x]) cache).pendingEmails.length := by
    have hmem := hI.pendingComplete emails.length (by omega) hxnc
    cases hlo : lookupIdx (buildIncrementalPlan (emails ++ [x]) cache).pendingIdx
        (keyOf (emails ++ [x]) emails.length) with
    | none => rw [hlo] at hmem; simp at hmem
    | some l0 =>
      have hsome : (lookupIdx (buildIncrementalPlan (emails ++ [x]) cache).pendingIdx
          (keyOf (emails ++ [x]) emails.length)).isSome = true := by
        rw [hlo]; rfl
      rcases (hI.lookupKeys _).mp hsome with ⟨j, hj, _⟩
      omega
  have hlen1 : (buildIncrementalPlan (emails ++ [x]) cache).pendingEmails.length = 1 := by
    omega
  rw [length_one_eq _ "" hlen1, hallval 0 (by omega)]

/-! ### The cache built from an all-ok committed snapshot -/

theorem rowsToCache_cases (rows : List Row) (k : String) :
    rowsToCache rows k =
      (if k = "" then none
       else
         match (rows.filter (fun r => emailKey r.Email == k)).getLast? with
         | some r2 => some r2
         | none => none) := by
  rw [rowsToCache, rowsToCache_aux rows (fun _ => none) k]

theorem rowsToCache_mem (rows : List Row) (k : String) (r : Row)
    (h : rowsToCache rows k = some r) : r ∈ rows := by
  rw [rowsToCache_cases] at h
  by_cases hk : k = ""
  · rw [if_pos hk] at h
    exact absurd h (by simp)
  · rw [if_neg hk] at h
    cases hfl : (rows.filter (fun r2 => emailKey r2.Email == k)).getLast? with
    | none => rw [hfl] at h; exact absurd h (by simp)
    | some r2 =>
      rw [hfl] at h
      have hr2 : r2 = r := by simpa using h
      subst hr2
      exact (List.mem_filter.mp (List.mem_of_mem_getLast? hfl)).1

theorem rows_all_ok_cache (rows : List Row)
    (hall : ∀ r ∈ rows, r.Status = "ok") :
    ∀ k r, rowsToCache rows k = some r → r.Status = "ok" := by
  intro k r h
  exact hall r (rowsToCache_mem rows k r h)

theorem equalFold_ok_ok : goEqualFold (goTrimSpace "ok") "ok" = true := by decide

theorem cachedOk_rowsToCache_hit (rows : List Row) (k : String) (r0 : Row)
    (hk : k ≠ "") (hmem : r0 ∈ rows) (hkey : emailKey r0.Email = k)
    (hall : ∀ r ∈ rows, r.Status = "ok") :
    cachedOk (rowsToCache rows) k = true := by
  have hfmem : r0 ∈ rows.filter (fun r => emailKey r.Email == k) :=
    List.mem_filter.mpr ⟨hmem, beq_iff_eq.mpr hkey⟩
  have hfne : rows.filter (fun r => emailKey r.Email == k) ≠ [] := by
    intro h0
    rw [h0] at hfmem
    simp at hfmem
  have hsome : (rows.filter (fun r => emailKey r.Email == k)).getLast?.isSome = true := by
    rw [List.getLast?_isSome]
    exact hfne
  cases hfl : (rows.filter (fun r => emailKey r.Email == k)).getLast? with
  | none => rw [hfl] at hsome; simp at hsome
  | some rl =>
    have hc : rowsToCache rows k = some rl := by
      rw [rowsToCache_cases, if_neg hk, hfl]
    have hrl : rl.Status = "ok" :=
      hall rl (rowsToCache_mem rows k rl hc)
    rw [cachedOk, hc]
    show goEqualFold (goTrimSpace rl.Status) "ok" = true
    rw [hrl]
    exact equalFold_ok_ok

theorem cachedOk_rowsToCache_miss (rows : List Row) (k : String)
    (hk : k ≠ "") (hmiss : ∀ r ∈ rows, emailKey r.Email ≠ k) :
    cachedOk (rowsToCache rows) k = false := by
  have hfe : rows.filter (fun r => emailKey r.Email == k) = [] := by
    rw [List.filter_eq_nil_iff]
    intro r hr
    exact fun hb => hmiss r hr (beq_iff_eq.mp hb)
  apply cachedOk_eq_false_none
  rw [rowsToCache_cases, if_neg hk, hfe]
  rfl


/-- C9: rerunning the dataset-mode orchestrator core with an unchanged input
identifier set, using the first run's committed output rows as the incremental
cache, performs zero Enricher calls; adding exactly one new identifier on a
subsequent run performs exactly one Enricher call. -/
theorem C9_incremental_idempotence (codec : RowCodec) (m : Int)
    (emails : List String) (x : String)
    (enricher : String → Except GoErr EnrichResult)
    (hok : ∀ s, ∃ r, enricher s = .ok r)
    (hne : ∀ e ∈ emails, goTrimSpace e ≠ "")
    (hx : goTrimSpace x ≠ "")
    (hxnew : goTrimSpace x ∉ emails.map goTrimSpace) :
    ∃ rows1 calls1 rows2 rows3,
      runDatasetCore codec m emails (fun _ => none) enricher = .ok (rows1, calls1) ∧
      runDatasetCore codec m emails (rowsToCache rows1) enricher = .ok (rows2, 0) ∧
      runDatasetCore codec m (emails ++ [x]) (rowsToCache rows2) enricher
        = .ok (rows3, 1) := by
  rcases runDatasetCore_all_ok codec m emails (fun _ => none) enricher hne hok
      (fun k r h => absurd h (by simp)) with ⟨rows1, hrun1, hlen1, hfacts1⟩
  have hall1 : ∀ r ∈ rows1, r.Status = "ok" := by
    intro r hr
    rcases exists_getD_of_mem rows1 default r hr with ⟨i, hi, hgd⟩
    rw [← hgd]
    exact (hfacts1 i (by rw [← hlen1]; exact hi)).1
  have hcached2 : ∀ i, i < emails.length →
      cachedOk (rowsToCache rows1) (keyOf emails i) = true := by
    intro i hi
    apply cachedOk_rowsToCache_hit rows1 (keyOf emails i) (rows1.getD i default)
    · rw [keyOf_eq]
      exact hne _ (getD_mem emails "" i hi)
    · exact getD_mem rows1 default i (by rw [hlen1]; exact hi)
    · rw [(hfacts1 i hi).2]
      rfl
    · exact hall1
  rcases runDatasetCore_all_ok codec m emails (rowsToCache rows1) enricher hne hok
      (rows_all_ok_cache rows1 hall1) with ⟨rows2, hrun2, hlen2, hfacts2⟩
  have hpend2 : (buildIncrementalPlan emails (rowsToCache rows1)).pendingEmails = [] :=
    pending_empty emails _ hcached2
  rw [hpend2] at hrun2
  have hall2 : ∀ r ∈ rows2, r.Status = "ok" := by
    intro r hr
    rcases exists_getD_of_mem rows2 default r hr with ⟨i, hi, hgd⟩
    rw [← hgd]
    exact (hfacts2 i (by rw [← hlen2]; exact hi)).1
  have hcached3 : ∀ i, i < emails.length →
      cachedOk (rowsToCache rows2) (keyOf emails i) = true := by
    intro i hi
    apply cachedOk_rowsToCache_hit rows2 (keyOf emails i) (rows2.getD i default)
    · rw [keyOf_eq]
      exact hne _ (getD_mem emails "" i hi)
    · exact getD_mem rows2 default i (by rw [hlen2]; exact hi)
    · rw [(hfacts2 i hi).2]
      rfl
    · exact hall2
  have hxnc : cachedOk (rowsToCache rows2) (keyOf (emails ++ [x]) emails.length)
      = false := by
    have hkx : keyOf (emails ++ [x]) emails.length = goTrimSpace x := by
      rw [keyOf, getD_append_last, emailKey, goTrimSpace_idem]
    rw [hkx]
    apply cachedOk_rowsToCache_miss rows2 _ hx
    intro r hr
    rcases exists_getD_of_mem rows2 default r hr with ⟨i, hi, hgd⟩
    have hi2 : i < emails.length := by rw [← hlen2]; exact hi
    rw [← hgd, (hfacts2 i hi2).2, emailKey, goTrimSpace_idem]
    intro hcontra
    apply hxnew
    rw [← hcontra]
    exact List.mem_map.mpr ⟨emails.getD i "", getD_mem emails "" i hi2, rfl⟩
  have hne3 : ∀ e ∈ emails ++ [x], goTrimSpace e ≠ "" := by
    intro e he
    rcases List.mem_append.mp he with h1 | h2
    · exact hne e h1
    · have he2 : e = x := by simpa using h2
      rw [he2]
      exact hx
  rcases runDatasetCore_all_ok codec m (emails ++ [x]) (rowsToCache rows2) enricher
      hne3 hok (rows_all_ok_cache rows2 hall2) with ⟨rows3, hrun3, _, _⟩
  have hpend3 : (buildIncrementalPlan (emails ++ [x]) (rowsToCache rows2)).pendingEmails
      = [goTrimSpace x] :=
    pending_single emails _ x hcached3 hxnc
  rw [hpend3] at hrun3
  refine ⟨rows1, _, rows2, rows3, hrun1, ?_, ?_⟩
  · simpa using hrun2
  · simpa using hrun3

/-- Witness for C9 at one identifier plus one new identifier. -/
theorem C9_incremental_idempotence_witness :
    ((∀ s : String, ∃ r, (fun _ : String => (.ok default : Except GoErr EnrichResult)) s = .ok r) ∧
      (∀ e ∈ (["a@b.com"] : List String), goTrimSpace e ≠ "") ∧
      goTrimSpace "c@d.e" ≠ "" ∧
      goTrimSpace "c@d.e" ∉ (["a@b.com"] : List String).map goTrimSpace) ∧
    (∃ rows1 calls1 rows2 rows3,
      runDatasetCore idCodec 0 ["a@b.com"] (fun _ => none)
          (fun _ => .ok default) = .ok (rows1, calls1) ∧
      runDatasetCore idCodec 0 ["a@b.com"] (rowsToCache rows1)
          (fun _ => .ok default) = .ok (rows2, 0) ∧
      runDatasetCore idCodec 0 (["a@b.com"] ++ ["c@d.e"]) (rowsToCache rows2)
          (fun _ => .ok default) = .ok (rows3, 1)) :=
  ⟨⟨fun s => ⟨default, rfl⟩, by decide, by decide, by decide⟩,
    C9_incremental_idempotence idCodec 0 ["a@b.com"] "c@d.e" (fun _ => .ok default)
      (fun s => ⟨default, rfl⟩) (by decide) (by decide) (by decide)⟩

end PipelineProof
